import Mathlib

/-!
Verification of the options-strategy generation and backtest-translation
engine of the temple-stuart-accounting repository.

The engine lives in `src/lib/strategy-builder.ts` (chain normalisation,
leg construction, payoff sampling, candidate scanning, probability/EV
model, gates, ranking) and in the backtest translator module
(`roundDelta`, `translateToBacktest`, `parseBacktestResponse`).

Modelling conventions:
* JavaScript numbers are modelled as exact rationals (`ℚ`).
* `Math.round(x)` is `⌊x + 1/2⌋` (round half toward +∞), written `jsRound`.
* The transcendental routines `Math.exp` and `Math.sqrt` are passed in as
  explicit function parameters `ex sq : ℚ → ℚ` (with `Math.SQRT2 = sq 2`);
  every theorem below either holds for all choices of `ex`/`sq` or
  instantiates them with concrete rational stand-ins.
* TypeScript `x | null` fields are `Option` values; the JavaScript
  truthiness of `a || b` expressions is modelled field-by-field.
-/

set_option maxRecDepth 8000

/-- Floor of a rational, computable (`q.num / q.den` with Euclidean
integer division, which rounds toward minus infinity for a positive
denominator). -/
def ratFloor (q : ℚ) : ℤ := q.num / (q.den : ℤ)

theorem ratFloor_eq_floor (q : ℚ) : ratFloor q = ⌊q⌋ := by
  rw [Rat.floor_def]
  rfl

/-- JavaScript `Math.round`: round half toward positive infinity. -/
def jsRound (x : ℚ) : ℤ := ratFloor (x + 1/2)

/-- `Math.round(x * 100) / 100` — round to cents. -/
def round2 (x : ℚ) : ℚ := (jsRound (x * 100) : ℚ) / 100

/-- `Math.round(x * 1000) / 1000`. -/
def round3 (x : ℚ) : ℚ := (jsRound (x * 1000) : ℚ) / 1000

/-- `Math.round(x * 10000) / 10000`. -/
def round4 (x : ℚ) : ℚ := (jsRound (x * 10000) : ℚ) / 10000

theorem jsRound_eq (x : ℚ) : jsRound x = ⌊x + 1/2⌋ := by
  rw [jsRound, ratFloor_eq_floor]

theorem jsRound_mono {x y : ℚ} (h : x ≤ y) : jsRound x ≤ jsRound y := by
  rw [jsRound_eq, jsRound_eq]
  exact Int.floor_le_floor (by linarith)

theorem jsRound_add_neg_nonneg (x : ℚ) : 0 ≤ jsRound x + jsRound (-x) := by
  rw [jsRound_eq, jsRound_eq]
  have h1 : x + 1/2 - 1 < (⌊x + 1/2⌋ : ℚ) := Int.sub_one_lt_floor _
  have h2 : -x + 1/2 - 1 < (⌊-x + 1/2⌋ : ℚ) := Int.sub_one_lt_floor _
  have h3 : (-1 : ℚ) < (⌊x + 1/2⌋ : ℚ) + (⌊-x + 1/2⌋ : ℚ) := by linarith
  have h4 : (-1 : ℤ) < ⌊x + 1/2⌋ + ⌊-x + 1/2⌋ := by exact_mod_cast h3
  omega

theorem jsRound_nonneg {x : ℚ} (h : 0 ≤ x) : 0 ≤ jsRound x := by
  rw [jsRound_eq]
  have : (0 : ℚ) ≤ x + 1/2 := by linarith
  exact Int.floor_nonneg.mpr this

theorem jsRound_intCast (n : ℤ) : jsRound (n : ℚ) = n := by
  rw [jsRound_eq]
  apply Int.floor_eq_iff.mpr
  constructor
  · linarith
  · norm_num

theorem round2_mono {x y : ℚ} (h : x ≤ y) : round2 x ≤ round2 y := by
  rw [round2, round2]
  have := jsRound_mono (show x * 100 ≤ y * 100 by linarith)
  have hc : (jsRound (x * 100) : ℚ) ≤ (jsRound (y * 100) : ℚ) := by exact_mod_cast this
  linarith

theorem round2_nonneg {x : ℚ} (h : 0 ≤ x) : 0 ≤ round2 x := by
  rw [round2]
  have := jsRound_nonneg (show (0:ℚ) ≤ x * 100 by linarith)
  have hc : (0 : ℚ) ≤ (jsRound (x * 100) : ℚ) := by exact_mod_cast this
  linarith

theorem round2_le_round2_of_le {x y : ℚ} (h : x ≤ y) : round2 x ≤ round2 y :=
  round2_mono h

theorem round2_le_one {x : ℚ} (h : x ≤ 1) : round2 x ≤ 1 := by
  rw [round2]
  have h100 : x * 100 ≤ ((100 : ℤ) : ℚ) := by push_cast; linarith
  have := jsRound_mono (y := ((100 : ℤ) : ℚ)) h100
  rw [jsRound_intCast] at this
  have hc : (jsRound (x * 100) : ℚ) ≤ (100 : ℚ) := by exact_mod_cast this
  linarith

theorem round3_nonneg {x : ℚ} (h : 0 ≤ x) : 0 ≤ round3 x := by
  rw [round3]
  have := jsRound_nonneg (show (0:ℚ) ≤ x * 1000 by linarith)
  have hc : (0 : ℚ) ≤ (jsRound (x * 1000) : ℚ) := by exact_mod_cast this
  linarith

theorem round3_le_one {x : ℚ} (h : x ≤ 1) : round3 x ≤ 1 := by
  rw [round3]
  have h1000 : x * 1000 ≤ ((1000 : ℤ) : ℚ) := by push_cast; linarith
  have := jsRound_mono (y := ((1000 : ℤ) : ℚ)) h1000
  rw [jsRound_intCast] at this
  have hc : (jsRound (x * 1000) : ℚ) ≤ (1000 : ℚ) := by exact_mod_cast this
  linarith

/-- Rounding to 3 decimals is the identity on a value already rounded to
2 decimals. -/
theorem round3_round2 (x : ℚ) : round3 (round2 x) = round2 x := by
  rw [round2, round3]
  have harg : (jsRound (x * 100) : ℚ) / 100 * 1000 = ((10 * jsRound (x * 100) : ℤ) : ℚ) := by
    push_cast
    ring
  rw [harg, jsRound_intCast]
  push_cast
  ring

/-- Key inequality for dominance of the analytic max loss over sampling:
if `w ≤ v` and `w ≤ 0` then `-round2 |w| ≤ round2 v`. -/
theorem neg_round2_abs_le_round2 {w v : ℚ} (hwv : w ≤ v) (hw : w ≤ 0) :
    -round2 |w| ≤ round2 v := by
  have habs : |w| = -w := abs_of_nonpos hw
  have h1 : round2 w ≤ round2 v := round2_mono hwv
  have h2 : -round2 (-w) ≤ round2 w := by
    rw [round2, round2]
    have := jsRound_add_neg_nonneg (w * 100)
    have hc : (0 : ℚ) ≤ (jsRound (w * 100) : ℚ) + (jsRound (-(w * 100)) : ℚ) := by
      exact_mod_cast this
    have hrw : -w * 100 = -(w * 100) := by ring
    rw [hrw]
    linarith
  rw [habs]
  linarith

/-- `Math.max(...list)` over a non-empty list (`0` as junk value for `[]`,
which the engine never hits). -/
def listMax : List ℚ → ℚ
  | [] => 0
  | x :: xs => xs.foldl max x

/-- `Math.min(...list)` over a non-empty list (`0` as junk value for `[]`). -/
def listMin : List ℚ → ℚ
  | [] => 0
  | x :: xs => xs.foldl min x

theorem init_le_foldl_max (xs : List ℚ) (a : ℚ) : a ≤ xs.foldl max a := by
  induction xs generalizing a with
  | nil => simp
  | cons x xs ih => exact le_trans (le_max_left a x) (ih (max a x))

theorem foldl_max_le_of_mem {xs : List ℚ} {a y : ℚ} (h : y ∈ xs) :
    y ≤ xs.foldl max a := by
  induction xs generalizing a with
  | nil => cases h
  | cons x xs ih =>
    rcases List.mem_cons.mp h with rfl | hmem
    · exact le_trans (le_max_right a y) (init_le_foldl_max xs (max a y))
    · exact ih hmem

theorem le_listMax_of_mem {xs : List ℚ} {y : ℚ} (h : y ∈ xs) : y ≤ listMax xs := by
  cases xs with
  | nil => cases h
  | cons x rest =>
    rw [listMax]
    rcases List.mem_cons.mp h with rfl | hmem
    · exact init_le_foldl_max rest y
    · exact foldl_max_le_of_mem hmem

theorem foldl_min_le_init (xs : List ℚ) (a : ℚ) : xs.foldl min a ≤ a := by
  induction xs generalizing a with
  | nil => simp
  | cons x xs ih => exact le_trans (ih (min a x)) (min_le_left a x)

theorem foldl_min_le_of_mem {xs : List ℚ} {a y : ℚ} (h : y ∈ xs) :
    xs.foldl min a ≤ y := by
  induction xs generalizing a with
  | nil => cases h
  | cons x xs ih =>
    rcases List.mem_cons.mp h with rfl | hmem
    · exact le_trans (foldl_min_le_init xs (min a y)) (min_le_right a y)
    · exact ih hmem

theorem listMin_le_of_mem {xs : List ℚ} {y : ℚ} (h : y ∈ xs) : listMin xs ≤ y := by
  cases xs with
  | nil => cases h
  | cons x rest =>
    rw [listMin]
    rcases List.mem_cons.mp h with rfl | hmem
    · exact foldl_min_le_init rest y
    · exact foldl_min_le_of_mem hmem

theorem foldl_max_mem (xs : List ℚ) (a : ℚ) : xs.foldl max a ∈ a :: xs := by
  induction xs generalizing a with
  | nil => simp
  | cons x xs ih =>
    simp only [List.foldl_cons]
    rcases List.mem_cons.mp (ih (max a x)) with heq | hmem
    · rcases max_choice a x with hm | hm
      · rw [heq, hm]
        exact List.mem_cons_self _ _
      · rw [heq, hm]
        exact List.mem_cons.mpr (Or.inr (List.mem_cons_self _ _))
    · exact List.mem_cons.mpr (Or.inr (List.mem_cons.mpr (Or.inr hmem)))

/-- The maximum of a non-empty list is attained by one of its members. -/
theorem listMax_mem {xs : List ℚ} (h : xs ≠ []) : listMax xs ∈ xs := by
  cases xs with
  | nil => exact absurd rfl h
  | cons x rest =>
    rw [listMax]
    rcases List.mem_cons.mp (foldl_max_mem rest x) with heq | hmem
    · rw [heq]
      exact List.mem_cons_self _ _
    · exact List.mem_cons.mpr (Or.inr hmem)

/-- Option contract type (`'call' | 'put'` in the source). -/
inductive OptType where
  | call
  | put
deriving DecidableEq

/-- Position side (`'buy' | 'sell'` in the source). -/
inductive Side where
  | buy
  | sell
deriving DecidableEq

/-- `StrikeData` — one row of the normalised strike table
(strategy-builder.ts, interface StrikeData). -/
structure StrikeData where
  strike : ℚ
  callBid : Option ℚ
  callAsk : Option ℚ
  putBid : Option ℚ
  putAsk : Option ℚ
  callDelta : Option ℚ
  putDelta : Option ℚ
  callTheta : Option ℚ
  putTheta : Option ℚ
  callGamma : Option ℚ
  putGamma : Option ℚ
  callVega : Option ℚ
  putVega : Option ℚ
  callIv : Option ℚ
  putIv : Option ℚ
  callVolume : Option ℚ
  putVolume : Option ℚ
  callOI : Option ℚ
  putOI : Option ℚ
  callWideSpread : Bool
  putWideSpread : Bool
deriving DecidableEq

/-- `StrategyLeg` — one option position with signed Greeks
(strategy-builder.ts, interface StrategyLeg). -/
structure StrategyLeg where
  type : OptType
  side : Side
  strike : ℚ
  price : ℚ
  delta : ℚ
  gamma : ℚ
  theta : ℚ
  vega : ℚ
  wideSpread : Bool
deriving DecidableEq

/-- One sampled point of the P&L curve. -/
structure PnlPoint where
  price : ℚ
  pnl : ℚ
deriving DecidableEq

/-- `StrategyCard` (strategy-builder.ts, interface StrategyCard). -/
structure StrategyCard where
  name : String
  label : String
  legs : List StrategyLeg
  expiration : String
  dte : ℚ
  netCredit : Option ℚ
  netDebit : Option ℚ
  maxProfit : Option ℚ
  maxLoss : Option ℚ
  breakevens : List ℚ
  pop : Option ℚ
  riskReward : Option ℚ
  netDelta : ℚ
  netGamma : ℚ
  netTheta : ℚ
  netVega : ℚ
  thetaPerDay : ℚ
  isUnlimited : Bool
  pnlPoints : List PnlPoint
  hasWideSpread : Bool
  ev : ℚ
  evPerRisk : ℚ
  hvPop : Option ℚ
deriving DecidableEq

/-- `GenerateParams` (strategy-builder.ts). The optional `symbol` is used
only for logging in the source and carried here for fidelity. -/
structure GenerateParams where
  strikes : List StrikeData
  currentPrice : ℚ
  ivRank : ℚ
  expiration : String
  dte : ℚ
  symbol : Option String
  iv30 : Option ℚ
  hv30 : Option ℚ
deriving DecidableEq

/-- `CREDIT_STRATEGIES` (strategy-builder.ts line 18). -/
def creditStrategies : List String :=
  ["Iron Condor", "Put Credit Spread", "Call Credit Spread",
   "Short Strangle", "Short Straddle", "Jade Lizard"]

/-- `normalCDF` (strategy-builder.ts lines 7-15) — Abramowitz & Stegun
approximation of the standard normal CDF.  `ex` stands for `Math.exp`
and `sqrt2` for the constant `Math.SQRT2`. -/
def normalCDF (ex : ℚ → ℚ) (sqrt2 : ℚ) (x : ℚ) : ℚ :=
  let a1 : ℚ := 0.254829592
  let a2 : ℚ := -0.284496736
  let a3 : ℚ := 1.421413741
  let a4 : ℚ := -1.453152027
  let a5 : ℚ := 1.061405429
  let p : ℚ := 0.3275911
  let sign : ℚ := if x < 0 then -1 else 1
  let absX : ℚ := |x| / sqrt2
  let t : ℚ := 1 / (1 + p * absX)
  let y : ℚ := 1 - (((((a5 * t + a4) * t) + a3) * t + a2) * t + a1) * t * ex (-(absX * absX))
  1/2 * (1 + sign * y)

/-- `computeHvAdjustedPoP` (strategy-builder.ts lines 20-55).  `ex` is
`Math.exp`, `sq` is `Math.sqrt` (so `Math.SQRT2` is `sq 2`).  The JS
guard `!hv30 || hv30 <= 0` collapses to `hv30 ≤ 0` over ℚ. -/
def computeHvAdjustedPoP (ex sq : ℚ → ℚ) (card : StrategyCard)
    (price hv30 dte : ℚ) : ℚ :=
  if ¬ (creditStrategies.contains card.name) then card.pop.getD 0
  else if hv30 ≤ 0 then card.pop.getD 0
  else
    let vol := price * hv30 * sq (dte / 365)
    if vol ≤ 0 then card.pop.getD 0
    else
      let shortPuts := card.legs.filter fun l =>
        decide (l.side = Side.sell ∧ l.type = OptType.put)
      let shortCalls := card.legs.filter fun l =>
        decide (l.side = Side.sell ∧ l.type = OptType.call)
      let credit := card.netCredit.getD 0
      if 0 < shortPuts.length then
        if 0 < shortCalls.length then
          let beLow := listMin (shortPuts.map (·.strike)) - credit
          let beHigh := listMax (shortCalls.map (·.strike)) + credit
          let zDown := (price - beLow) / vol
          let zUp := (beHigh - price) / vol
          max 0 (min 1 (normalCDF ex (sq 2) zDown + normalCDF ex (sq 2) zUp - 1))
        else
          let beLow := listMin (shortPuts.map (·.strike)) - credit
          let z := (price - beLow) / vol
          max 0 (min 1 (normalCDF ex (sq 2) z))
      else if 0 < shortCalls.length then
        let beHigh := listMax (shortCalls.map (·.strike)) + credit
        let z := (beHigh - price) / vol
        max 0 (min 1 (normalCDF ex (sq 2) z))
      else card.pop.getD 0

/-- `findByDelta` (strategy-builder.ts lines 178-195): the strike whose
delta on the requested side is closest to the target; a strictly smaller
difference is required to displace the current best, so the earliest
closest strike wins. -/
def fbdStep (target : ℚ) (side : OptType) (acc : Option (StrikeData × ℚ))
    (s : StrikeData) : Option (StrikeData × ℚ) :=
  match (match side with | .call => s.callDelta | .put => s.putDelta) with
  | none => acc
  | some d =>
    let diff := |d - target|
    match acc with
    | none => some (s, diff)
    | some (b, bd) => if diff < bd then some (s, diff) else some (b, bd)

def findByDelta (strikes : List StrikeData) (target : ℚ) (side : OptType) :
    Option StrikeData :=
  (strikes.foldl (fbdStep target side) none).map Prod.fst

/-- `nextStrikeBelow` (strategy-builder.ts lines 197-200): among strikes
strictly below the reference, the earliest one with the largest strike
(the source stably sorts descending and takes the head). -/
def pickHigher (acc : Option StrikeData) (s : StrikeData) : Option StrikeData :=
  match acc with
  | none => some s
  | some b => if b.strike < s.strike then some s else some b

def nextStrikeBelow (strikes : List StrikeData) (ref : ℚ) : Option StrikeData :=
  (strikes.filter fun s => decide (s.strike < ref)).foldl pickHigher none

/-- `nextStrikeAbove` (strategy-builder.ts lines 202-205). -/
def pickLower (acc : Option StrikeData) (s : StrikeData) : Option StrikeData :=
  match acc with
  | none => some s
  | some b => if s.strike < b.strike then some s else some b

def nextStrikeAbove (strikes : List StrikeData) (ref : ℚ) : Option StrikeData :=
  (strikes.filter fun s => decide (ref < s.strike)).foldl pickLower none

/-- `makeLeg` (strategy-builder.ts lines 207-232). -/
def makeLeg (s : StrikeData) (t : OptType) (sd : Side) : Option StrategyLeg :=
  let bid := match t with | .call => s.callBid | .put => s.putBid
  let ask := match t with | .call => s.callAsk | .put => s.putAsk
  let price := match sd with | .sell => bid | .buy => ask
  match price with
  | none => none
  | some pr =>
    if pr ≤ 0 then none
    else
      let d := (match t with | .call => s.callDelta | .put => s.putDelta).getD 0
      let g := (match t with | .call => s.callGamma | .put => s.putGamma).getD 0
      let th := (match t with | .call => s.callTheta | .put => s.putTheta).getD 0
      let v := (match t with | .call => s.callVega | .put => s.putVega).getD 0
      some
        { type := t
          side := sd
          strike := s.strike
          price := pr
          delta := match sd with | .sell => -d | .buy => d
          gamma := match sd with | .sell => -g | .buy => g
          theta := match sd with | .sell => -th | .buy => th
          vega := match sd with | .sell => -v | .buy => v
          wideSpread := match t with | .call => s.callWideSpread | .put => s.putWideSpread }

/-- Intrinsic value of one option at underlying price `p`
(the two `Math.max(0, ...)` expressions of the P&L loops). -/
def intrinsicAt (t : OptType) (strike p : ℚ) : ℚ :=
  match t with
  | .call => max 0 (p - strike)
  | .put => max 0 (strike - p)

/-- Per-leg contribution to the P&L at price `p`
(strategy-builder.ts lines 246-255 and 294-300, identical bodies). -/
def legPnlAt (l : StrategyLeg) (p : ℚ) : ℚ :=
  match l.side with
  | .buy => (intrinsicAt l.type l.strike p - l.price) * 100
  | .sell => (l.price - intrinsicAt l.type l.strike p) * 100

/-- Total P&L of a leg set at price `p`. -/
def payoffAt (legs : List StrategyLeg) (p : ℚ) : ℚ :=
  (legs.map (legPnlAt · p)).sum

/-- `computePnlPoints` (strategy-builder.ts lines 234-259).  The JS loop
`for (p = lo; p <= hi + 0.01; p += step)` visits `lo + k*step` for every
`k` with `k*step ≤ hi + 0.01 - lo`; with exact rational arithmetic that
is `k ≤ ⌊(hi + 0.01 - lo)/step⌋`.  When `step ≤ 0` (degenerate inputs on
which the JS loop would not terminate) the model emits the single point
at `lo` (i.e. `k = 0`).  `samplePoint` is the loop body: the point pushed
for iteration `k`. -/
def samplePoint (legs : List StrategyLeg) (lo step : ℚ) (k : ℕ) : PnlPoint :=
  ⟨round2 (lo + (k : ℚ) * step), round2 (payoffAt legs (lo + (k : ℚ) * step))⟩

def computePnlPoints (legs : List StrategyLeg) (currentPrice : ℚ) : List PnlPoint :=
  let allStrikes := legs.map (·.strike)
  let minStrike := listMin allStrikes
  let maxStrike := listMax allStrikes
  let spread := max (maxStrike - minStrike) (currentPrice * (1/10))
  let lo := max 0 (min (currentPrice * (85/100)) (minStrike - spread))
  let hi := max (currentPrice * (115/100)) (maxStrike + spread)
  let step := (hi - lo) / 50
  if 0 < step then
    (List.range ((ratFloor ((hi + 1/100 - lo) / step)).toNat + 1)).map
      (samplePoint legs lo step)
  else [samplePoint legs lo step 0]

/-- Net signed cash flow of a leg list (strategy-builder.ts lines 272-276):
positive means a net credit. -/
def cashFlowOf (legs : List StrategyLeg) : ℚ :=
  legs.foldl (fun cf l => match l.side with | .sell => cf + l.price | .buy => cf - l.price) 0

/-- The critical prices `{0, every leg strike, 2 × max strike}` used for
the analytic max-loss evaluation (strategy-builder.ts line 291). -/
def criticalPrices (legs : List StrategyLeg) : List ℚ :=
  0 :: legs.map (·.strike) ++ [listMax (legs.map (·.strike)) * 2]

/-- `worstPnl` of the analytic max-loss loop (strategy-builder.ts
lines 292-302): the minimum of 0 and the payoff at every critical price. -/
def worstPnlAt (legs : List StrategyLeg) : ℚ :=
  (criticalPrices legs).foldl (fun w p => min w (payoffAt legs p)) 0

/-- The analytic max loss (strategy-builder.ts line 303),
`Math.round(Math.abs(worstPnl) * 100) / 100`. -/
def maxLossCritical (legs : List StrategyLeg) : ℚ :=
  round2 |worstPnlAt legs|

/-- The breakeven scan over consecutive sampled points
(strategy-builder.ts lines 307-316), with linear interpolation at each
sign change. -/
def breakevensFrom : PnlPoint → List PnlPoint → List ℚ
  | _, [] => []
  | prev, curr :: rest =>
    (if (prev.pnl ≤ 0 ∧ 0 < curr.pnl) ∨ (0 ≤ prev.pnl ∧ curr.pnl < 0) then
      [round2 (prev.price + |prev.pnl| / (|prev.pnl| + |curr.pnl|) * (curr.price - prev.price))]
     else []) ++ breakevensFrom curr rest

/-- Breakevens of a sampled curve: the scan starts at index 1. -/
def breakevensOf (points : List PnlPoint) : List ℚ :=
  match points with
  | [] => []
  | p0 :: rest => breakevensFrom p0 rest

/-- `buildCard` (strategy-builder.ts lines 261-361). -/
def buildCard (name label : String) (legs : List StrategyLeg)
    (expiration : String) (dte currentPrice : ℚ) (isUnlimited : Bool) :
    StrategyCard :=
  let cashFlow := cashFlowOf legs
  let netCredit : Option ℚ := if 0 ≤ cashFlow then some (round2 cashFlow) else none
  let netDebit : Option ℚ := if 0 ≤ cashFlow then none else some (round2 |cashFlow|)
  let pnlPoints := computePnlPoints legs currentPrice
  let pnls := pnlPoints.map (·.pnl)
  let maxProfit := round2 (listMax pnls)
  let maxLoss : Option ℚ := if isUnlimited then none else some (maxLossCritical legs)
  let breakevens := breakevensOf pnlPoints
  let netDelta := (legs.map (·.delta)).sum
  let netGamma := (legs.map (·.gamma)).sum
  let netTheta := (legs.map (·.theta)).sum
  let netVega := (legs.map (·.vega)).sum
  let thetaPerDay := round2 (netTheta * 100)
  let pop : Option ℚ :=
    if 0 ≤ cashFlow then
      let shortPutDelta := ((legs.filter fun l =>
        decide (l.side = Side.sell ∧ l.type = OptType.put)).map fun l => |l.delta|).sum
      let shortCallDelta := ((legs.filter fun l =>
        decide (l.side = Side.sell ∧ l.type = OptType.call)).map fun l => |l.delta|).sum
      some (max 0 (min 1 (1 - shortPutDelta - shortCallDelta)))
    else
      match legs.filter fun l => decide (l.side = Side.buy) with
      | [] => none
      | l0 :: _ => some |l0.delta|
  let riskReward : Option ℚ :=
    match maxLoss with
    | some ml => if 0 < ml then some (round2 (maxProfit / ml)) else none
    | none => none
  { name := name
    label := label
    legs := legs
    expiration := expiration
    dte := dte
    netCredit := netCredit
    netDebit := netDebit
    maxProfit := if 0 < maxProfit then some maxProfit else none
    maxLoss := maxLoss
    breakevens := breakevens
    pop := pop.map round2
    riskReward := riskReward
    netDelta := round3 netDelta
    netGamma := round4 netGamma
    netTheta := round3 netTheta
    netVega := round3 netVega
    thetaPerDay := thetaPerDay
    isUnlimited := isUnlimited
    pnlPoints := pnlPoints
    hasWideSpread := legs.any (·.wideSpread)
    ev := 0
    evPerRisk := 0
    hvPop := none }

/-- Delta scan ranges (strategy-builder.ts lines 365-367). -/
def IC_DELTAS : List ℚ := [1/10, 12/100, 14/100, 16/100, 18/100, 2/10, 22/100, 25/100]

def PCS_DELTAS : List ℚ := [15/100, 18/100, 2/10, 22/100, 25/100, 28/100, 3/10]

def SS_DELTAS : List ℚ := [1/10, 12/100, 14/100, 16/100, 18/100, 2/10, 25/100]

/-- One iron-condor candidate at target delta `d` together with its score
(the loop body of `scanBestIronCondor`, strategy-builder.ts lines 374-413);
`none` encodes every `continue` branch. -/
def icCandidate (valid : List StrikeData) (label expiration : String)
    (dte currentPrice : ℚ) (d : ℚ) : Option (StrategyCard × ℚ) :=
  match findByDelta valid (-d) .put, findByDelta valid d .call with
  | some sp, some sc =>
    match nextStrikeBelow valid sp.strike, nextStrikeAbove valid sc.strike with
    | some lp, some lc =>
      match makeLeg sp .put .sell, makeLeg lp .put .buy,
            makeLeg sc .call .sell, makeLeg lc .call .buy with
      | some l1, some l2, some l3, some l4 =>
        let card := buildCard "Iron Condor" label [l1, l2, l3, l4]
          expiration dte currentPrice false
        match card.netCredit, card.pop, card.maxLoss with
        | some nc, some p, some ml =>
          let mp := card.maxProfit.getD 0
          if 0 < nc ∧ 0 < ml ∧ 0 < mp then some (card, p * (mp / ml)) else none
        | _, _, _ => none
      | _, _, _, _ => none
    | _, _ => none
  | _, _ => none

/-- One put-credit-spread candidate at target delta `d`
(the loop body of `scanBestPutCreditSpread`, lines 424-459). -/
def pcsCandidate (valid : List StrikeData) (label expiration : String)
    (dte currentPrice : ℚ) (d : ℚ) : Option (StrategyCard × ℚ) :=
  match findByDelta valid (-d) .put with
  | some sp =>
    match nextStrikeBelow valid sp.strike with
    | some lp =>
      match makeLeg sp .put .sell, makeLeg lp .put .buy with
      | some l1, some l2 =>
        let card := buildCard "Put Credit Spread" label [l1, l2]
          expiration dte currentPrice false
        match card.netCredit, card.pop, card.maxLoss with
        | some nc, some p, some ml =>
          let mp := card.maxProfit.getD 0
          if 0 < nc ∧ 0 < ml ∧ 0 < mp then some (card, p * (mp / ml)) else none
        | _, _, _ => none
      | _, _ => none
    | none => none
  | none => none

/-- One short-strangle candidate at target delta `d`
(the loop body of `scanBestShortStrangle`, lines 470-496).  The strangle
is built with unlimited risk and scores `pop * netCredit * 100`. -/
def ssCandidate (valid : List StrikeData) (label expiration : String)
    (dte currentPrice : ℚ) (d : ℚ) : Option (StrategyCard × ℚ) :=
  match findByDelta valid (-d) .put, findByDelta valid d .call with
  | some sp, some sc =>
    match makeLeg sp .put .sell, makeLeg sc .call .sell with
    | some l1, some l2 =>
      let card := buildCard "Short Strangle" label [l1, l2]
        expiration dte currentPrice true
      match card.netCredit, card.pop with
      | some nc, some p =>
        if 0 < nc then some (card, p * nc * 100) else none
      | _, _ => none
    | _, _ => none
  | _, _ => none

/-- The best-score accumulator shared by the three scanners: keep the
candidate whose score strictly exceeds the best so far (`-Infinity`
initially, modelled by `none`). -/
def bestOver (f : ℚ → Option (StrategyCard × ℚ)) (ds : List ℚ) :
    Option (StrategyCard × ℚ) :=
  ds.foldl (fun acc d =>
    match f d with
    | none => acc
    | some (c, s) =>
      match acc with
      | none => some (c, s)
      | some (b, bs) => if bs < s then some (c, s) else some (b, bs)) none

/-- `scanBestIronCondor` (strategy-builder.ts lines 369-417). -/
def scanBestIronCondor (valid : List StrikeData) (label expiration : String)
    (dte currentPrice : ℚ) : Option StrategyCard :=
  (bestOver (icCandidate valid label expiration dte currentPrice) IC_DELTAS).map Prod.fst

/-- `scanBestPutCreditSpread` (strategy-builder.ts lines 419-463). -/
def scanBestPutCreditSpread (valid : List StrikeData) (label expiration : String)
    (dte currentPrice : ℚ) : Option StrategyCard :=
  (bestOver (pcsCandidate valid label expiration dte currentPrice) PCS_DELTAS).map Prod.fst

/-- `scanBestShortStrangle` (strategy-builder.ts lines 465-500). -/
def scanBestShortStrangle (valid : List StrikeData) (label expiration : String)
    (dte currentPrice : ℚ) : Option StrategyCard :=
  (bestOver (ssCandidate valid label expiration dte currentPrice) SS_DELTAS).map Prod.fst

/-- The fixed-delta 0.50/0.30 long-call vertical used both as the
normal-IV "Bull Call Spread" (lines 549-559) and the low-IV
"Debit Spread" (lines 597-607); the two code blocks are identical up to
the card name and label. -/
def directionalSpreadCard (name label : String) (valid : List StrikeData)
    (expiration : String) (dte currentPrice : ℚ) : Option StrategyCard :=
  match findByDelta valid (1/2) .call, findByDelta valid (3/10) .call with
  | some lb, some sb =>
    if lb.strike = sb.strike then none
    else
      match makeLeg lb .call .buy, makeLeg sb .call .sell with
      | some l1, some l2 =>
        some (buildCard name label [l1, l2] expiration dte currentPrice false)
      | _, _ => none
  | _, _ => none

/-- The low-IV "Long Straddle" block (strategy-builder.ts lines 571-581). -/
def longStraddleCard (valid : List StrikeData) (expiration : String)
    (dte currentPrice : ℚ) : Option StrategyCard :=
  match findByDelta valid (1/2) .call with
  | some atm =>
    match makeLeg atm .call .buy, makeLeg atm .put .buy with
    | some l1, some l2 =>
      some (buildCard "Long Straddle" "A" [l1, l2] expiration dte currentPrice false)
    | _, _ => none
  | none => none

/-- The low-IV "Long Strangle" block (strategy-builder.ts lines 583-594). -/
def longStrangleCard (valid : List StrikeData) (expiration : String)
    (dte currentPrice : ℚ) : Option StrategyCard :=
  match findByDelta valid (3/10) .call, findByDelta valid (-(3/10)) .put with
  | some bc, some bp =>
    if bc.strike = bp.strike then none
    else
      match makeLeg bc .call .buy, makeLeg bp .put .buy with
      | some l1, some l2 =>
        some (buildCard "Long Strangle" "B" [l1, l2] expiration dte currentPrice false)
      | _, _ => none
  | _, _ => none

/-- The strike filter of `generateStrategies` (lines 510-513): at least
one delta and at least one quote must be present. -/
def validStrikes (strikes : List StrikeData) : List StrikeData :=
  strikes.filter fun s =>
    (s.callDelta.isSome || s.putDelta.isSome) &&
    (s.callBid.isSome || s.callAsk.isSome || s.putBid.isSome || s.putAsk.isSome)

/-- The IV-tier dispatch of `generateStrategies` (lines 535-608),
producing the pre-filter card list in push order. -/
def rawCards (valid : List StrikeData) (pct : ℚ) (expiration : String)
    (dte currentPrice : ℚ) : List StrategyCard :=
  if 50 < pct then
    (scanBestIronCondor valid "A" expiration dte currentPrice).toList ++
    (scanBestPutCreditSpread valid "B" expiration dte currentPrice).toList ++
    (scanBestShortStrangle valid "C" expiration dte currentPrice).toList
  else if 20 ≤ pct then
    (directionalSpreadCard "Bull Call Spread" "A" valid expiration dte currentPrice).toList ++
    (scanBestIronCondor valid "B" expiration dte currentPrice).toList ++
    (scanBestPutCreditSpread valid "C" expiration dte currentPrice).toList
  else
    (longStraddleCard valid expiration dte currentPrice).toList ++
    (longStrangleCard valid expiration dte currentPrice).toList ++
    (directionalSpreadCard "Debit Spread" "C" valid expiration dte currentPrice).toList

/-- `iv` of the EV-enrichment block (line 613): `params.iv30 ?? 0.30`. -/
def ivOfOpt (iv30 : Option ℚ) : ℚ := iv30.getD (3/10)

/-- `hv` of the EV-enrichment block (line 614): `params.hv30 ?? iv`. -/
def hvOfOpt (iv30 hv30 : Option ℚ) : ℚ := hv30.getD (ivOfOpt iv30)

/-- `cappedHv` (lines 615-616): cap the IV/HV ratio at 4. -/
def cappedHvOf (iv30 hv30 : Option ℚ) : ℚ :=
  let iv := ivOfOpt iv30
  let hv := hvOfOpt iv30 hv30
  if 0 < iv ∧ 0 < hv ∧ 4 < iv / hv then iv / 4 else hv

/-- `hvProxyML` (line 617): the HV-derived proxy loss used in place of an
undefined max loss for unlimited-risk structures. -/
def hvProxyMLOf (sq : ℚ → ℚ) (currentPrice cappedHv dte : ℚ) : ℚ :=
  currentPrice * cappedHv * sq (dte / 365) * (5/2) * 100

/-- The per-card EV / volatility-adjusted-PoP enrichment (the body of the
`for (const card of cards)` loop, strategy-builder.ts lines 619-636).
A card with `pop == null` is skipped (`continue`). -/
def enrichCard (ex sq : ℚ → ℚ) (price cappedHv dte hvProxyML : ℚ)
    (card : StrategyCard) : StrategyCard :=
  match card.pop with
  | none => card
  | some p =>
    let mp := card.maxProfit.getD 0
    let isCredit := creditStrategies.contains card.name
    let hvPop := if isCredit then computeHvAdjustedPoP ex sq card price cappedHv dte else p
    let card1 := { card with hvPop := if isCredit then some (round3 hvPop) else none }
    let effectiveML := if card.isUnlimited then hvProxyML else card.maxLoss.getD 0
    let evPop := if isCredit then hvPop else p
    if 0 < mp ∧ 0 < effectiveML then
      let e := round2 (evPop * mp - (1 - evPop) * effectiveML)
      { card1 with ev := e, evPerRisk := round4 (e / effectiveML) }
    else card1

/-- `POP_FLOORS` with its `?? 0.40` default (strategy-builder.ts
lines 639-645 and 657). -/
def popFloor (name : String) : ℚ :=
  if name = "Put Credit Spread" then 55/100
  else if name = "Call Credit Spread" then 55/100
  else if name = "Iron Condor" then 1/2
  else if name = "Short Strangle" then 6/10
  else if name = "Jade Lizard" then 55/100
  else if name = "Bull Call Spread" then 3/10
  else if name = "Bear Put Spread" then 3/10
  else if name = "Debit Spread" then 3/10
  else if name = "Calendar Spread" then 3/10
  else if name = "Diagonal Spread" then 3/10
  else if name = "Long Straddle" then 25/100
  else if name = "Long Strangle" then 25/100
  else 4/10

/-- The 3-tier gate predicate (the body of `cards.filter`,
strategy-builder.ts lines 647-670): Gate A (EV > 0), Gate B (delta-PoP
floor), Gate C (minimum credit $0.10). -/
def gatePass (card : StrategyCard) : Bool :=
  if card.ev ≤ 0 then false
  else
    match card.pop with
    | none => false
    | some p =>
      if p < popFloor card.name then false
      else
        match card.netCredit with
        | some c => decide (¬ c < 1/10)
        | none => true

/-- The composite ranking score (strategy-builder.ts lines 680-684). -/
def computeCompositeScore (hvProxyML edgeRatio : ℚ) (card : StrategyCard) : ℚ :=
  let effectiveML := if card.isUnlimited then hvProxyML else card.maxLoss.getD 0
  let thetaEff := if 0 < effectiveML then |card.thetaPerDay| / effectiveML * 100 else 0
  card.evPerRisk * 50 + thetaEff * 30 + edgeRatio * 20

/-- The ordering used by the ranking sort (strategy-builder.ts
lines 674-678): `a` may precede `b` when `a`'s composite score is at
least `b`'s. -/
def scoreGE (hvProxyML edgeRatio : ℚ) (a b : StrategyCard) : Prop :=
  computeCompositeScore hvProxyML edgeRatio b ≤ computeCompositeScore hvProxyML edgeRatio a

instance (hm er : ℚ) : DecidableRel (scoreGE hm er) := fun a b =>
  inferInstanceAs (Decidable (_ ≤ _))

/-- The sort itself: `Array.prototype.sort` with the comparator
`scoreB - scoreA` is a stable descending sort on the composite score,
modelled by stable insertion sort under `scoreGE`. -/
def sortCards (hvProxyML edgeRatio : ℚ) (cards : List StrategyCard) :
    List StrategyCard :=
  List.insertionSort (scoreGE hvProxyML edgeRatio) cards

/-- Sequential relabelling starting at char code 65
(`String.fromCharCode(65 + i)`, strategy-builder.ts line 687). -/
def relabelFrom (n : ℕ) : List StrategyCard → List StrategyCard
  | [] => []
  | c :: cs => { c with label := String.mk [Char.ofNat (65 + n)] } :: relabelFrom (n + 1) cs

/-- The re-labelling pass over the ranked list. -/
def relabelCards (cards : List StrategyCard) : List StrategyCard :=
  relabelFrom 0 cards

/-- `edgeRatio` (strategy-builder.ts line 673). -/
def edgeRatioOf (iv hv : ℚ) : ℚ :=
  if 0 < iv then max 0 (iv - hv) / iv else 0

/-- `generateStrategies` (strategy-builder.ts lines 504-690): tier
dispatch, EV enrichment, 3-tier gates, composite-score ranking and
relabelling.  `ex`/`sq` model `Math.exp`/`Math.sqrt`. -/
def generateStrategies (ex sq : ℚ → ℚ) (params : GenerateParams) :
    List StrategyCard :=
  let valid := validStrikes params.strikes
  if valid.length < 3 then []
  else
    let pct := params.ivRank * 100
    let cards := rawCards valid pct params.expiration params.dte params.currentPrice
    let cappedHv := cappedHvOf params.iv30 params.hv30
    let hvProxyML := hvProxyMLOf sq params.currentPrice cappedHv params.dte
    let enriched := cards.map
      (enrichCard ex sq params.currentPrice cappedHv params.dte hvProxyML)
    let filtered := enriched.filter gatePass
    let iv := ivOfOpt params.iv30
    let hv := hvOfOpt params.iv30 params.hv30
    let sorted := sortCards hvProxyML (edgeRatioOf iv hv) filtered
    relabelCards sorted

/-- A backtester leg: delta quantised to an integer multiple of 5
(backtest translator, interface BacktestLeg). -/
structure BacktestLeg where
  side : Side
  type : OptType
  delta : ℤ
deriving DecidableEq

/-- Backtest management rules (interface BacktestManagement). -/
structure BacktestManagement where
  profitTargetPercent : ℚ
  stopLossPercent : ℚ
  exitDte : ℚ
deriving DecidableEq

/-- Backtest request configuration (interface BacktestConfig). -/
structure BacktestConfig where
  symbol : String
  strategyType : String
  legs : List BacktestLeg
  dte : ℚ
  management : BacktestManagement
  startDate : String
  endDate : String
deriving DecidableEq

/-- The optional overrides accepted by `translateToBacktest`. -/
structure BacktestOverrides where
  dte : Option ℚ
  management : Option BacktestManagement
  startDate : Option String
  endDate : Option String
deriving DecidableEq

/-- `roundDelta` (backtest translator lines 74-78): round `|delta| * 100`
to the nearest multiple of 5 and clamp to `[5, 50]`. -/
def roundDelta (delta : ℚ) : ℤ :=
  let abs100 := |delta| * 100
  let rounded := jsRound (abs100 / 5) * 5
  max 5 (min 50 rounded)

/-- `mapStrategyType` (backtest translator lines 81-96). -/
def mapStrategyType (name : String) : String :=
  if name = "Iron Condor" then "iron_condor"
  else if name = "Put Credit Spread" then "short_put_vertical"
  else if name = "Call Credit Spread" then "short_call_vertical"
  else if name = "Short Strangle" then "short_strangle"
  else if name = "Short Straddle" then "short_straddle"
  else if name = "Bull Call Spread" then "long_call_vertical"
  else if name = "Bear Put Spread" then "long_put_vertical"
  else if name = "Debit Spread" then "long_call_vertical"
  else if name = "Long Straddle" then "long_straddle"
  else if name = "Long Strangle" then "long_strangle"
  else if name = "Jade Lizard" then "jade_lizard"
  else "custom"

/-- ASCII upper-casing of the symbol (`symbol.toUpperCase()`). -/
def jsToUpperCase (s : String) : String := ⟨s.data.map Char.toUpper⟩

/-- `translateToBacktest` (backtest translator lines 101-133).  The two
date parameters stand for the `Date`-derived defaults "today minus five
years" and "today" computed by the source. -/
def translateToBacktest (card : StrategyCard) (symbol : String)
    (ov : BacktestOverrides) (defaultStart defaultEnd : String) : BacktestConfig :=
  { symbol := jsToUpperCase symbol
    strategyType := mapStrategyType card.name
    legs := card.legs.map fun l => ⟨l.side, l.type, roundDelta l.delta⟩
    dte := ov.dte.getD card.dte
    management := ov.management.getD ⟨50, 200, 21⟩
    startDate := ov.startDate.getD defaultStart
    endDate := ov.endDate.getD defaultEnd }

/-- Exit reason enumeration (interface BacktestTrade). -/
inductive ExitReason where
  | profit_target
  | stop_loss
  | dte_exit
  | expiration
deriving DecidableEq

/-- One parsed backtest trade (interface BacktestTrade). -/
structure BacktestTrade where
  entryDate : String
  exitDate : String
  entryPrice : ℚ
  exitPrice : ℚ
  pnl : ℚ
  pnlPercent : ℚ
  holdingDays : ℤ
  exitReason : ExitReason
  maxDrawdown : ℚ
deriving DecidableEq

/-- One raw trade record as delivered by the backtester: every accepted
key name is an optional field (`none` = key absent). -/
structure RawTrade where
  entryDate : Option String
  openDate : Option String
  exitDate : Option String
  closeDate : Option String
  entryPrice : Option ℚ
  openPrice : Option ℚ
  exitPrice : Option ℚ
  closePrice : Option ℚ
  pnl : Option ℚ
  profitLoss : Option ℚ
  pnlPercent : Option ℚ
  returnPercent : Option ℚ
  holdingDays : Option ℚ
  daysHeld : Option ℚ
  exitReason : Option String
  closeReason : Option String
  maxDrawdown : Option ℚ
deriving DecidableEq

/-- The trades-bearing portion of a raw backtester response: the trades
array may arrive under `trades` or `results`. -/
structure RawResponse where
  trades : Option (List RawTrade)
  results : Option (List RawTrade)
deriving DecidableEq

/-- JavaScript `a || b || ''` over two optional strings: the empty string
is falsy, a missing key is falsy. -/
def jsOrS (a b : Option String) : String :=
  let x := a.getD ""
  if x = "" then b.getD "" else x

/-- JavaScript `a || b || 0` over two optional numbers (0 is falsy),
composed with `parseFloat`, which is the identity on numbers. -/
def jsOrQ (a b : Option ℚ) : ℚ :=
  let x := a.getD 0
  if x = 0 then b.getD 0 else x

/-- `parseInt(x, 10)` on a numeric value: truncation toward zero. -/
def truncQ (q : ℚ) : ℤ := if 0 ≤ q then ⌊q⌋ else ⌈q⌉

/-- ASCII `toLowerCase`. -/
def jsToLowerCase (s : String) : String := ⟨s.data.map Char.toLower⟩

/-- `String.prototype.includes` as substring containment. -/
def strIncludes (s pat : String) : Bool := decide (pat.data <:+: s.data)

/-- `mapExitReason` (backtest translator lines 264-270). -/
def mapExitReason (reason : String) : ExitReason :=
  let r := jsToLowerCase reason
  if strIncludes r "profit" then .profit_target
  else if strIncludes r "stop" || strIncludes r "loss" then .stop_loss
  else if strIncludes r "dte" || strIncludes r "exit" then .dte_exit
  else .expiration

/-- The per-trade parser (the `rawTrades.map` body of
`parseBacktestResponse`, backtest translator lines 169-179). -/
def parseTrade (t : RawTrade) : BacktestTrade :=
  { entryDate := jsOrS t.entryDate t.openDate
    exitDate := jsOrS t.exitDate t.closeDate
    entryPrice := jsOrQ t.entryPrice t.openPrice
    exitPrice := jsOrQ t.exitPrice t.closePrice
    pnl := jsOrQ t.pnl t.profitLoss
    pnlPercent := jsOrQ t.pnlPercent t.returnPercent
    holdingDays := truncQ (jsOrQ t.holdingDays t.daysHeld)
    exitReason := mapExitReason (jsOrS t.exitReason t.closeReason)
    maxDrawdown := t.maxDrawdown.getD 0 }

/-- The trades extraction of `parseBacktestResponse` (line 168):
`raw['trades'] || raw['results'] || []` — note that a present-but-empty
array is truthy in JavaScript. -/
def rawTradesOf (raw : RawResponse) : List RawTrade :=
  match raw.trades with
  | some l => l
  | none => raw.results.getD []

/-- The typed trade list produced by `parseBacktestResponse`
(backtest translator lines 167-179). -/
def parseBacktestTrades (raw : RawResponse) : List BacktestTrade :=
  (rawTradesOf raw).map parseTrade

theorem cashFlow_foldl (legs : List StrategyLeg) (a : ℚ) :
    legs.foldl (fun cf l => match l.side with | .sell => cf + l.price | .buy => cf - l.price) a =
    a + ((legs.filter fun l => decide (l.side = Side.sell)).map (·.price)).sum
      - ((legs.filter fun l => decide (l.side = Side.buy)).map (·.price)).sum := by
  induction legs generalizing a with
  | nil => simp
  | cons l ls ih =>
    simp only [List.foldl_cons]
    cases hside : l.side with
    | sell =>
      rw [ih]
      simp [List.filter_cons, hside]
      ring
    | buy =>
      rw [ih]
      simp [List.filter_cons, hside]
      ring

/-- The net signed cash flow is the sell-price sum minus the buy-price sum. -/
theorem cashFlowOf_eq (legs : List StrategyLeg) :
    cashFlowOf legs =
    ((legs.filter fun l => decide (l.side = Side.sell)).map (·.price)).sum
      - ((legs.filter fun l => decide (l.side = Side.buy)).map (·.price)).sum := by
  rw [cashFlowOf, cashFlow_foldl]
  ring

/-- C4: for every StrategyCard built from any non-empty leg list, exactly
one of netCredit and netDebit is non-null; the non-null one is
non-negative and equals the absolute value of the net signed cash flow
Σ(sell prices) − Σ(buy prices) rounded to cents, reported as netCredit
when the cash flow is ≥ 0 and as netDebit otherwise. -/
theorem c4_net_credit_debit_exclusive (name label : String)
    (legs : List StrategyLeg) (expiration : String) (dte cp : ℚ)
    (unl : Bool) (hne : legs ≠ []) :
    (0 ≤ cashFlowOf legs →
      (buildCard name label legs expiration dte cp unl).netCredit =
        some (round2 |cashFlowOf legs|) ∧
      (buildCard name label legs expiration dte cp unl).netDebit = none) ∧
    (cashFlowOf legs < 0 →
      (buildCard name label legs expiration dte cp unl).netDebit =
        some (round2 |cashFlowOf legs|) ∧
      (buildCard name label legs expiration dte cp unl).netCredit = none) ∧
    (∀ v, (buildCard name label legs expiration dte cp unl).netCredit = some v ∨
          (buildCard name label legs expiration dte cp unl).netDebit = some v →
      0 ≤ v) ∧
    cashFlowOf legs =
      ((legs.filter fun l => decide (l.side = Side.sell)).map (·.price)).sum
        - ((legs.filter fun l => decide (l.side = Side.buy)).map (·.price)).sum := by
  refine ⟨?_, ?_, ?_, cashFlowOf_eq legs⟩
  · intro h
    constructor
    · simp only [buildCard, if_pos h]
      rw [abs_of_nonneg h]
    · simp only [buildCard, if_pos h]
  · intro h
    have hn : ¬ (0 ≤ cashFlowOf legs) := not_le.mpr h
    constructor
    · simp only [buildCard, if_neg hn]
    · simp only [buildCard, if_neg hn]
  · intro v hv
    by_cases h : 0 ≤ cashFlowOf legs
    · rcases hv with hv | hv
      · simp only [buildCard, if_pos h, Option.some_inj] at hv
        subst hv
        exact round2_nonneg h
      · simp only [buildCard, if_pos h] at hv
        exact absurd hv (by simp)
    · rcases hv with hv | hv
      · simp only [buildCard, if_neg h, Option.some_inj] at hv
        exact absurd hv (by simp)
      · simp only [buildCard, if_neg h, Option.some_inj] at hv
        subst hv
        exact round2_nonneg (abs_nonneg _)

theorem roundDelta_spec (d : ℚ) :
    5 ∣ roundDelta d ∧ 5 ≤ roundDelta d ∧ roundDelta d ≤ 50 := by
  rw [roundDelta]
  refine ⟨?_, le_max_left _ _, ?_⟩
  · rcases max_choice (5 : ℤ) (min 50 (jsRound (|d| * 100 / 5) * 5)) with hm | hm
    · rw [hm]
    · rw [hm]
      rcases min_choice (50 : ℤ) (jsRound (|d| * 100 / 5) * 5) with hmin | hmin
      · rw [hmin]
        exact ⟨10, rfl⟩
      · rw [hmin]
        exact Dvd.intro_left _ rfl
  · exact max_le (by norm_num) (min_le_left _ _)

/-- C6: the delta quantisation of the backtest translator always yields
an integer multiple of 5 in [5, 50], for every input delta (any sign or
magnitude, including 0 and 1); consequently every leg of every
BacktestConfig produced by `translateToBacktest` carries such a delta. -/
theorem c6_roundDelta_multiple_of_five :
    (∀ d : ℚ, 5 ∣ roundDelta d ∧ 5 ≤ roundDelta d ∧ roundDelta d ≤ 50) ∧
    (∀ (card : StrategyCard) (symbol : String) (ov : BacktestOverrides)
      (ds de : String) (leg : BacktestLeg),
      leg ∈ (translateToBacktest card symbol ov ds de).legs →
      5 ∣ leg.delta ∧ 5 ≤ leg.delta ∧ leg.delta ≤ 50) := by
  refine ⟨roundDelta_spec, ?_⟩
  intro card symbol ov ds de leg hmem
  simp only [translateToBacktest] at hmem
  rcases List.mem_map.mp hmem with ⟨l, _, rfl⟩
  exact roundDelta_spec l.delta

/-- Rewriting a raw trade to the alternate field names: move the P&L
value from the canonical `pnl` key to `profit-loss`. -/
def altifyTrade (t : RawTrade) : RawTrade :=
  { t with pnl := none, profitLoss := t.pnl }

theorem jsOrQ_none_comm (a : Option ℚ) : jsOrQ a none = jsOrQ none a := by
  cases a with
  | none => rfl
  | some x =>
    simp only [jsOrQ, Option.getD_some, Option.getD_none]
    by_cases hx : x = 0
    · simp [hx]
    · simp [hx]

theorem parseTrade_altify (t : RawTrade) (h : t.profitLoss = none) :
    parseTrade (altifyTrade t) = parseTrade t := by
  simp only [parseTrade, altifyTrade]
  rw [h]
  rw [jsOrQ_none_comm]

/-- C9: `parseBacktestResponse` is shape-tolerant — a raw response
carrying the trade list under the key `results` with the per-trade field
`profit-loss` parses to the same BacktestTrade list (all fields) as the
same response carrying it under `trades` with the canonical field `pnl`. -/
theorem c9_parse_shape_tolerant (l : List RawTrade)
    (hcanon : ∀ t ∈ l, t.profitLoss = none) :
    parseBacktestTrades ⟨none, some (l.map altifyTrade)⟩ =
    parseBacktestTrades ⟨some l, none⟩ := by
  simp only [parseBacktestTrades, rawTradesOf, Option.getD_some, List.map_map]
  apply List.map_congr_left
  intro t ht
  exact parseTrade_altify t (hcanon t ht)

/-- C5 counterexample data: a single long call far out of the money
(strike 100, premium 5) with the underlying at 1 — every sampled P&L
point is negative. -/
def c5CexLeg : StrategyLeg :=
  { type := .call, side := .buy, strike := 100, price := 5,
    delta := 1/2, gamma := 0, theta := 0, vega := 0, wideSpread := false }

/-- C5 counterexample: the claim "maxProfit equals the maximum sampled
P&L value (rounded to cents)" fails — here that maximum is −490, but the
card stores `none` (the source keeps `maxProfit` only when positive). -/
theorem c5_counterexample :
    (buildCard "Long Call" "A" [c5CexLeg] "2026-01-16" 30 1 false).maxProfit = none ∧
    round2 (listMax ((computePnlPoints [c5CexLeg] 1).map (·.pnl))) = -490 ∧
    (buildCard "Long Call" "A" [c5CexLeg] "2026-01-16" 30 1 false).maxProfit ≠
      some (round2 (listMax ((computePnlPoints [c5CexLeg] 1).map (·.pnl)))) := by
  with_unfolding_all decide

/-- C5 (amended): the card's maxProfit equals the maximum P&L value over
the sampled payoff curve rounded to cents whenever that maximum is
positive, and is null otherwise. -/
theorem c5_maxProfit_amended (name label : String) (legs : List StrategyLeg)
    (expiration : String) (dte cp : ℚ) (unl : Bool) (hne : legs ≠ []) :
    (0 < round2 (listMax ((computePnlPoints legs cp).map (·.pnl))) →
      (buildCard name label legs expiration dte cp unl).maxProfit =
        some (round2 (listMax ((computePnlPoints legs cp).map (·.pnl))))) ∧
    (round2 (listMax ((computePnlPoints legs cp).map (·.pnl))) ≤ 0 →
      (buildCard name label legs expiration dte cp unl).maxProfit = none) := by
  constructor
  · intro h
    simp only [buildCard, if_pos h]
  · intro h
    simp only [buildCard, if_neg (not_lt.mpr h)]

/-- C2 (amended): when the HV input is zero (or non-positive) and IV is
present, the enrichment step stores a volatility-adjusted PoP exactly
equal to the delta-based PoP for every credit-family card (the fallback
path of `computeHvAdjustedPoP`), and that value is 0 only if the
delta-based PoP itself is 0.  (When HV is *absent* the source defaults
HV to IV, so the adjusted path runs instead — see the counterexample.) -/
theorem c2_hv_zero_fallback (ex sq : ℚ → ℚ) (card : StrategyCard)
    (price dte hvProxyML : ℚ) (iv30 : Option ℚ) (h : ℚ) (p : ℚ)
    (hcredit : creditStrategies.contains card.name = true)
    (hpop : card.pop = some p) (hp2 : round2 p = p) (hh : h ≤ 0) :
    (enrichCard ex sq price (cappedHvOf iv30 (some h)) dte hvProxyML card).hvPop =
      some p ∧
    (p ≠ 0 →
      (enrichCard ex sq price (cappedHvOf iv30 (some h)) dte hvProxyML card).hvPop ≠
        some 0) := by
  have hcap : cappedHvOf iv30 (some h) = h := by
    rw [cappedHvOf]
    have : ¬ (0 < ivOfOpt iv30 ∧ 0 < hvOfOpt iv30 (some h) ∧
        4 < ivOfOpt iv30 / hvOfOpt iv30 (some h)) := by
      rw [hvOfOpt, Option.getD_some]
      intro hcon
      exact absurd hcon.2.1 (not_lt.mpr hh)
    rw [if_neg this, hvOfOpt, Option.getD_some]
  have hadj : computeHvAdjustedPoP ex sq card price (cappedHvOf iv30 (some h)) dte = p := by
    rw [hcap, computeHvAdjustedPoP]
    rw [if_neg (not_not_intro hcredit)]
    rw [if_pos hh, hpop, Option.getD_some]
  have hmain : (enrichCard ex sq price (cappedHvOf iv30 (some h)) dte hvProxyML card).hvPop =
      some p := by
    rw [enrichCard, hpop]
    simp only [hcredit, if_true, hadj]
    have hr3 : round3 p = p := by
      rw [← hp2, round3_round2, hp2]
    by_cases hev : 0 < card.maxProfit.getD 0 ∧
        0 < (if card.isUnlimited then hvProxyML else card.maxLoss.getD 0)
    · simp only [if_pos hev, hr3]
    · simp only [if_neg hev, hr3]
  exact ⟨hmain, fun hp0 hcontra => hp0 (by
    rw [hmain] at hcontra
    exact Option.some_inj.mp hcontra)⟩

/-- Concrete stand-in for `Math.exp` in the C2 counterexample: the true
`exp(-absX^2)` at the evaluation point is ≈ 0.49, and any value in
[0, 1] leaves the adjusted PoP far from the delta PoP; 0 is used. -/
def exCex : ℚ → ℚ := fun _ => 0

/-- Concrete stand-in for `Math.sqrt` in the counterexamples: exact at 1
(the only point where the fallback question needs it, since dte = 365)
and a rational approximation at 2. -/
def sqCex : ℚ → ℚ := fun x => if x = 1 then 1 else if x = 2 then 3/2 else 0

/-- C2 counterexample data: a credit-family card (Put Credit Spread,
short put strike 50, net credit 1, delta-based PoP 0.5). -/
def c2CexCard : StrategyCard :=
  { name := "Put Credit Spread"
    label := "A"
    legs := [{ type := .put, side := .sell, strike := 50, price := 1,
               delta := 3/10, gamma := 0, theta := 0, vega := 0, wideSpread := false }]
    expiration := "2026-01-16"
    dte := 365
    netCredit := some 1
    netDebit := none
    maxProfit := some 60
    maxLoss := some 40
    breakevens := [49]
    pop := some (1/2)
    riskReward := some (3/2)
    netDelta := 3/10
    netGamma := 0
    netTheta := 0
    netVega := 0
    thetaPerDay := 0
    isUnlimited := false
    pnlPoints := []
    hasWideSpread := false
    ev := 0
    evPerRisk := 0
    hvPop := none }

/-- C2 counterexample: with HV *absent* (and IV = 0.40 present) the
enrichment does NOT fall back — HV defaults to IV, the adjusted path
runs, and the stored hvPop (here 1) differs from the delta-based PoP
(0.5). -/
theorem c2_counterexample :
    (enrichCard exCex sqCex 100 (cappedHvOf (some (2/5)) none) 365 0 c2CexCard).hvPop =
      some 1 ∧
    c2CexCard.pop = some (1/2) ∧
    (enrichCard exCex sqCex 100 (cappedHvOf (some (2/5)) none) 365 0 c2CexCard).hvPop ≠
      c2CexCard.pop := by
  with_unfolding_all decide

/-- Relabelling changes only the `label` field: every member of the
relabelled list agrees with a member of the input on all other fields
(the ones the claims inspect are listed). -/
theorem mem_relabelFrom {c : StrategyCard} {l : List StrategyCard} {n : ℕ}
    (h : c ∈ relabelFrom n l) :
    ∃ c' ∈ l, c.netCredit = c'.netCredit ∧ c.pop = c'.pop ∧ c.hvPop = c'.hvPop := by
  induction l generalizing n with
  | nil => cases h
  | cons x xs ih =>
    rw [relabelFrom] at h
    rcases List.mem_cons.mp h with rfl | hmem
    · exact ⟨x, List.mem_cons_self _ _, rfl, rfl, rfl⟩
    · rcases ih hmem with ⟨c', hc', hfields⟩
      exact ⟨c', List.mem_cons.mpr (Or.inr hc'), hfields⟩

theorem mem_sortCards {c : StrategyCard} {hm er : ℚ} {l : List StrategyCard} :
    c ∈ sortCards hm er l ↔ c ∈ l :=
  (List.perm_insertionSort _ l).mem_iff

/-- Gate C inside the filter: a passing card with a non-null net credit
has credit at least $0.10. -/
theorem gatePass_netCredit {card : StrategyCard} {c : ℚ}
    (hg : gatePass card = true) (hc : card.netCredit = some c) : 1/10 ≤ c := by
  rw [gatePass] at hg
  split at hg
  · cases hg
  · split at hg
    · cases hg
    · split at hg
      · cases hg
      · rw [hc] at hg
        simp only [decide_eq_true_eq] at hg
        exact not_lt.mp hg

/-- Every card of the final ranked output passed the gate filter. -/
theorem mem_generateStrategies_gate {ex sq : ℚ → ℚ} {params : GenerateParams}
    {card : StrategyCard} (h : card ∈ generateStrategies ex sq params) :
    ∃ c', gatePass c' = true ∧ card.netCredit = c'.netCredit ∧
      card.pop = c'.pop ∧ card.hvPop = c'.hvPop := by
  rw [generateStrategies] at h
  split at h
  · cases h
  · rcases mem_relabelFrom h with ⟨c', hc', hfields⟩
    rw [mem_sortCards] at hc'
    have := (List.mem_filter.mp hc').2
    exact ⟨c', this, hfields⟩

/-- C7: the minimum-credit gate (Gate C) rejects every candidate whose
netCredit is non-null and strictly between $0 and $0.10; it accepts a
candidate with netCredit exactly $0.10 when the EV gate and the PoP-floor
gate also pass; hence every card of the final ranked output with a
non-null netCredit has netCredit ≥ 0.10. -/
theorem c7_min_credit_gate :
    (∀ (card : StrategyCard) (c : ℚ), card.netCredit = some c → 0 < c → c < 1/10 →
      gatePass card = false) ∧
    (∀ (card : StrategyCard) (p : ℚ), card.netCredit = some (1/10) →
      0 < card.ev → card.pop = some p → popFloor card.name ≤ p →
      gatePass card = true) ∧
    (∀ (ex sq : ℚ → ℚ) (params : GenerateParams) (card : StrategyCard) (c : ℚ),
      card ∈ generateStrategies ex sq params → card.netCredit = some c →
      1/10 ≤ c) := by
  refine ⟨?_, ?_, ?_⟩
  · intro card c hnc hpos hlt
    rw [gatePass]
    split
    · rfl
    · split
      · rfl
      · split
        · rfl
        · rw [hnc]
          simp only [decide_eq_false_iff_not]
          exact not_not_intro hlt
  · intro card p hnc hev hpop hfloor
    rw [gatePass]
    simp only [if_neg (not_le.mpr hev), hpop, hnc]
    rw [if_neg (not_lt.mpr hfloor)]
    simp only [decide_eq_true_eq]
    norm_num
  · intro ex sq params card c hmem hnc
    rcases mem_generateStrategies_gate hmem with ⟨c', hg, hcredit, _, _⟩
    rw [hnc] at hcredit
    exact gatePass_netCredit hg hcredit.symm

theorem filter_score_orderedInsert (hm er v : ℚ) (x : StrategyCard)
    (l : List StrategyCard) :
    (List.orderedInsert (scoreGE hm er) x l).filter
      (fun c => decide (computeCompositeScore hm er c = v)) =
    if computeCompositeScore hm er x = v then
      x :: l.filter (fun c => decide (computeCompositeScore hm er c = v))
    else l.filter (fun c => decide (computeCompositeScore hm er c = v)) := by
  induction l with
  | nil =>
    rw [List.orderedInsert]
    by_cases hx : computeCompositeScore hm er x = v
    · simp [hx]
    · simp [hx]
  | cons y ys ih =>
    rw [List.orderedInsert]
    by_cases hr : scoreGE hm er x y
    · rw [if_pos hr]
      by_cases hx : computeCompositeScore hm er x = v
      · simp [List.filter_cons, hx]
      · simp [List.filter_cons, hx]
    · rw [if_neg hr]
      have hlt : computeCompositeScore hm er x < computeCompositeScore hm er y :=
        lt_of_not_le hr
      by_cases hx : computeCompositeScore hm er x = v
      · have hy : ¬ (computeCompositeScore hm er y = v) := by
          rw [← hx]
          exact ne_of_gt hlt
        simp only [List.filter_cons, hy, decide_eq_true_eq, if_false, ih, if_pos hx, hx]
      · by_cases hy : computeCompositeScore hm er y = v
        · simp only [List.filter_cons, ih, if_neg hx]
        · simp only [List.filter_cons, ih, if_neg hx]

theorem filter_score_insertionSort (hm er v : ℚ) (l : List StrategyCard) :
    (sortCards hm er l).filter
      (fun c => decide (computeCompositeScore hm er c = v)) =
    l.filter (fun c => decide (computeCompositeScore hm er c = v)) := by
  induction l with
  | nil => rfl
  | cons x xs ih =>
    rw [sortCards, List.insertionSort]
    rw [filter_score_orderedInsert]
    rw [sortCards] at ih
    by_cases hx : computeCompositeScore hm er x = v
    · rw [if_pos hx, ih, List.filter_cons]
      simp [hx]
    · rw [if_neg hx, ih, List.filter_cons]
      simp [hx]

theorem relabelFrom_labels (l : List StrategyCard) (n : ℕ) :
    (relabelFrom n l).map (·.label) =
    (List.range l.length).map (fun i => String.mk [Char.ofNat (65 + (n + i))]) := by
  induction l generalizing n with
  | nil => rfl
  | cons x xs ih =>
    rw [relabelFrom, List.map_cons, ih (n + 1)]
    rw [List.length_cons, List.range_succ_eq_map, List.map_cons, List.map_map]
    congr 1
    apply List.map_congr_left
    intro i _
    simp only [Function.comp_apply]
    have harith : 65 + (n + 1 + i) = 65 + (n + Nat.succ i) := by omega
    rw [harith]

/-- C8: the ranking step of `generateStrategies` is a stable descending
sort on the composite score and is idempotent, and relabelling assigns
"A", "B", "C", … sequentially in rank order regardless of the labels
assigned at generation time: (a) the sorted list is pairwise descending
under `scoreGE`; (b) it is a permutation of the input; (c) cards of any
fixed score keep their original relative order (stability); (d) an
already-sorted list is left unchanged; (e) sorting twice equals sorting
once; (f) the relabelled list carries char-codes 65, 66, … in order,
and those spell "A", "B", "C". -/
theorem c8_ranking_stable_idempotent :
    (∀ (hm er : ℚ) (l : List StrategyCard),
      List.Sorted (scoreGE hm er) (sortCards hm er l)) ∧
    (∀ (hm er : ℚ) (l : List StrategyCard), (sortCards hm er l).Perm l) ∧
    (∀ (hm er v : ℚ) (l : List StrategyCard),
      (sortCards hm er l).filter (fun c => decide (computeCompositeScore hm er c = v)) =
      l.filter (fun c => decide (computeCompositeScore hm er c = v))) ∧
    (∀ (hm er : ℚ) (l : List StrategyCard),
      List.Sorted (scoreGE hm er) l → sortCards hm er l = l) ∧
    (∀ (hm er : ℚ) (l : List StrategyCard),
      sortCards hm er (sortCards hm er l) = sortCards hm er l) ∧
    (∀ l : List StrategyCard,
      (relabelCards l).map (·.label) =
      (List.range l.length).map (fun i => String.mk [Char.ofNat (65 + i)])) ∧
    (String.mk [Char.ofNat 65] = "A" ∧ String.mk [Char.ofNat 66] = "B" ∧
      String.mk [Char.ofNat 67] = "C") := by
  have hsorted : ∀ (hm er : ℚ) (l : List StrategyCard),
      List.Sorted (scoreGE hm er) (sortCards hm er l) := by
    intro hm er l
    haveI : IsTotal StrategyCard (scoreGE hm er) := ⟨fun a b => le_total _ _⟩
    haveI : IsTrans StrategyCard (scoreGE hm er) := ⟨fun a b c hab hbc => le_trans hbc hab⟩
    exact List.sorted_insertionSort _ l
  have heq : ∀ (hm er : ℚ) (l : List StrategyCard),
      List.Sorted (scoreGE hm er) l → sortCards hm er l = l := by
    intro hm er l hs
    exact List.Sorted.insertionSort_eq hs
  refine ⟨hsorted, ?_, filter_score_insertionSort, heq, ?_, ?_, by decide, by decide, by decide⟩
  · intro hm er l
    exact List.perm_insertionSort _ l
  · intro hm er l
    exact heq hm er _ (hsorted hm er l)
  · intro l
    rw [relabelCards, relabelFrom_labels]
    apply List.map_congr_left
    intro i _
    rw [Nat.zero_add]

/-- Interpolated crossings stay inside their interval, so the left-to-right
breakeven scan over price-sorted points yields a sorted list bounded below
by the rounded price of the scan's starting point. -/
theorem breakevensFrom_sorted (pts : List PnlPoint) :
    ∀ prev : PnlPoint,
    List.Pairwise (fun a b : PnlPoint => a.price ≤ b.price) (prev :: pts) →
    List.Sorted (· ≤ ·) (breakevensFrom prev pts) ∧
    ∀ b ∈ breakevensFrom prev pts, round2 prev.price ≤ b := by
  induction pts with
  | nil =>
    intro prev _
    exact ⟨List.sorted_nil, fun b hb => absurd hb (List.not_mem_nil b)⟩
  | cons curr rest ih =>
    intro prev hpw
    have hpc : prev.price ≤ curr.price :=
      (List.pairwise_cons.mp hpw).1 curr (List.mem_cons_self _ _)
    have htail := (List.pairwise_cons.mp hpw).2
    rcases ih curr htail with ⟨hsorted, hbound⟩
    rw [breakevensFrom]
    by_cases hcond : (prev.pnl ≤ 0 ∧ 0 < curr.pnl) ∨ (0 ≤ prev.pnl ∧ curr.pnl < 0)
    · rw [if_pos hcond]
      set x := prev.price + |prev.pnl| / (|prev.pnl| + |curr.pnl|) * (curr.price - prev.price)
        with hx
      have hcurrne : 0 < |curr.pnl| := by
        rcases hcond with ⟨_, h⟩ | ⟨_, h⟩
        · exact abs_pos.mpr (ne_of_gt h)
        · exact abs_pos.mpr (ne_of_lt h)
      have hdenom : 0 < |prev.pnl| + |curr.pnl| := by
        have := abs_nonneg prev.pnl
        linarith
      have hratio0 : 0 ≤ |prev.pnl| / (|prev.pnl| + |curr.pnl|) :=
        div_nonneg (abs_nonneg _) (le_of_lt hdenom)
      have hratio1 : |prev.pnl| / (|prev.pnl| + |curr.pnl|) ≤ 1 := by
        rw [div_le_one hdenom]
        have := abs_nonneg curr.pnl
        linarith
      have hxlo : prev.price ≤ x := by
        rw [hx]
        nlinarith
      have hxhi : x ≤ curr.price := by
        rw [hx]
        nlinarith
      constructor
      · rw [List.singleton_append]
        apply List.sorted_cons.mpr
        refine ⟨?_, hsorted⟩
        intro b hb
        calc round2 x ≤ round2 curr.price := round2_mono hxhi
          _ ≤ b := hbound b hb
      · intro b hb
        rw [List.singleton_append] at hb
        rcases List.mem_cons.mp hb with rfl | hmem
        · exact round2_mono hxlo
        · calc round2 prev.price ≤ round2 curr.price := round2_mono hpc
            _ ≤ b := hbound b hmem
    · rw [if_neg hcond, List.nil_append]
      refine ⟨hsorted, fun b hb => ?_⟩
      calc round2 prev.price ≤ round2 curr.price := round2_mono hpc
        _ ≤ b := hbound b hb

/-- The sampled points of `computePnlPoints` carry non-decreasing prices. -/
theorem computePnlPoints_price_pairwise (legs : List StrategyLeg) (cp : ℚ) :
    List.Pairwise (fun a b : PnlPoint => a.price ≤ b.price)
      (computePnlPoints legs cp) := by
  rw [computePnlPoints]
  split
  · next hstep =>
    rw [List.pairwise_map]
    apply List.Pairwise.imp ?_ (List.pairwise_lt_range _)
    intro i j hij
    rw [samplePoint, samplePoint]
    apply round2_mono
    have hle : (i : ℚ) ≤ (j : ℚ) := by exact_mod_cast le_of_lt hij
    nlinarith
  · exact List.pairwise_singleton _ _

/-- C10: for every StrategyCard built from a non-empty leg list, the
breakevens list is sorted in ascending (non-decreasing) price order:
breakevens are collected by one left-to-right scan over the sampled P&L
points, whose prices are non-decreasing, with at most one interpolated
zero-crossing per interval. -/
theorem c10_breakevens_sorted (name label : String) (legs : List StrategyLeg)
    (expiration : String) (dte cp : ℚ) (unl : Bool) (hne : legs ≠ []) :
    List.Sorted (· ≤ ·)
      (buildCard name label legs expiration dte cp unl).breakevens := by
  have hfield : (buildCard name label legs expiration dte cp unl).breakevens =
      breakevensOf (computePnlPoints legs cp) := by
    simp only [buildCard]
  rw [hfield, breakevensOf.eq_def]
  split
  · exact List.sorted_nil
  · next p0 rest heq =>
    have hpw := computePnlPoints_price_pairwise legs cp
    rw [heq] at hpw
    exact (breakevensFrom_sorted rest p0 hpw).1

theorem foldl_min_mem (xs : List ℚ) (a : ℚ) : xs.foldl min a ∈ a :: xs := by
  induction xs generalizing a with
  | nil => simp
  | cons x xs ih =>
    simp only [List.foldl_cons]
    rcases List.mem_cons.mp (ih (min a x)) with heq | hmem
    · rcases min_choice a x with hm | hm
      · rw [heq, hm]
        exact List.mem_cons_self _ _
      · rw [heq, hm]
        exact List.mem_cons.mpr (Or.inr (List.mem_cons_self _ _))
    · exact List.mem_cons.mpr (Or.inr (List.mem_cons.mpr (Or.inr hmem)))

/-- The minimum of a non-empty list is attained by one of its members. -/
theorem listMin_mem {xs : List ℚ} (h : xs ≠ []) : listMin xs ∈ xs := by
  cases xs with
  | nil => exact absurd rfl h
  | cons x rest =>
    rw [listMin]
    rcases List.mem_cons.mp (foldl_min_mem rest x) with heq | hmem
    · rw [heq]
      exact List.mem_cons_self _ _
    · exact List.mem_cons.mpr (Or.inr hmem)

/-- Sign contribution of one leg to the far-right payoff slope:
+1 for a bought call, −1 for a sold call, 0 for puts. -/
def legCallSign (l : StrategyLeg) : ℤ :=
  match l.type, l.side with
  | OptType.call, Side.buy => 1
  | OptType.call, Side.sell => -1
  | OptType.put, _ => 0

/-- Signed number of call legs (buys count +1, sells −1, puts 0): the
slope of the payoff beyond the highest strike is `100 ×` this. -/
def callSignedCount (legs : List StrategyLeg) : ℤ :=
  (legs.map legCallSign).sum

/-- Each leg's P&L is affine on any interval containing no strike of the
leg in its interior. -/
theorem legPnl_interp (l : StrategyLeg) (c1 c2 p : ℚ) (h1 : c1 ≤ p) (h2 : p ≤ c2)
    (hsep : l.strike ≤ c1 ∨ c2 ≤ l.strike) :
    legPnlAt l p * (c2 - c1) = legPnlAt l c1 * (c2 - p) + legPnlAt l c2 * (p - c1) := by
  rcases l with ⟨t, sd, K, pr, d, g, th, v, w⟩
  simp only [legPnlAt, intrinsicAt] at *
  cases t with
  | call =>
    rcases hsep with hK | hK
    · have e1 : max 0 (c1 - K) = c1 - K := max_eq_right (by linarith)
      have e2 : max 0 (p - K) = p - K := max_eq_right (by linarith)
      have e3 : max 0 (c2 - K) = c2 - K := max_eq_right (by linarith)
      cases sd <;> simp only [e1, e2, e3] <;> ring
    · have e1 : max 0 (c1 - K) = 0 := max_eq_left (by linarith)
      have e2 : max 0 (p - K) = 0 := max_eq_left (by linarith)
      have e3 : max 0 (c2 - K) = 0 := max_eq_left (by linarith)
      cases sd <;> simp only [e1, e2, e3] <;> ring
  | put =>
    rcases hsep with hK | hK
    · have e1 : max 0 (K - c1) = 0 := max_eq_left (by linarith)
      have e2 : max 0 (K - p) = 0 := max_eq_left (by linarith)
      have e3 : max 0 (K - c2) = 0 := max_eq_left (by linarith)
      cases sd <;> simp only [e1, e2, e3] <;> ring
    · have e1 : max 0 (K - c1) = K - c1 := max_eq_right (by linarith)
      have e2 : max 0 (K - p) = K - p := max_eq_right (by linarith)
      have e3 : max 0 (K - c2) = K - c2 := max_eq_right (by linarith)
      cases sd <;> simp only [e1, e2, e3] <;> ring

theorem payoffAt_cons (l : StrategyLeg) (ls : List StrategyLeg) (p : ℚ) :
    payoffAt (l :: ls) p = legPnlAt l p + payoffAt ls p := by
  simp [payoffAt]

/-- The total payoff is affine on any interval containing no leg strike
in its interior. -/
theorem payoff_interp (legs : List StrategyLeg) (c1 c2 p : ℚ)
    (h1 : c1 ≤ p) (h2 : p ≤ c2)
    (hsep : ∀ l ∈ legs, l.strike ≤ c1 ∨ c2 ≤ l.strike) :
    payoffAt legs p * (c2 - c1) =
      payoffAt legs c1 * (c2 - p) + payoffAt legs c2 * (p - c1) := by
  induction legs with
  | nil => simp [payoffAt]
  | cons l ls ih =>
    have hl := legPnl_interp l c1 c2 p h1 h2 (hsep l (List.mem_cons_self _ _))
    have hls := ih fun x hx => hsep x (List.mem_cons.mpr (Or.inr hx))
    simp only [payoffAt_cons]
    nlinarith [hl, hls]

/-- On a strike-free interval the payoff at an interior point is at least
the smaller endpoint value. -/
theorem payoff_ge_min_endpoints (legs : List StrategyLeg) (c1 c2 p : ℚ)
    (h1 : c1 ≤ p) (h2 : p ≤ c2) (hlt : c1 < c2)
    (hsep : ∀ l ∈ legs, l.strike ≤ c1 ∨ c2 ≤ l.strike) :
    min (payoffAt legs c1) (payoffAt legs c2) ≤ payoffAt legs p := by
  have hinterp := payoff_interp legs c1 c2 p h1 h2 hsep
  have hm1 : min (payoffAt legs c1) (payoffAt legs c2) ≤ payoffAt legs c1 := min_le_left _ _
  have hm2 : min (payoffAt legs c1) (payoffAt legs c2) ≤ payoffAt legs c2 := min_le_right _ _
  nlinarith [hinterp, hm1, hm2]

/-- Beyond every strike the payoff is affine with slope
`100 * callSignedCount`. -/
theorem payoff_sub_beyond (legs : List StrategyLeg) (q p : ℚ)
    (hq : ∀ l ∈ legs, l.strike ≤ q) (hpq : q ≤ p) :
    payoffAt legs p - payoffAt legs q = (p - q) * 100 * (callSignedCount legs : ℚ) := by
  induction legs with
  | nil => simp [payoffAt, callSignedCount]
  | cons l ls ih =>
    have hK : l.strike ≤ q := hq l (List.mem_cons_self _ _)
    have hls := ih fun x hx => hq x (List.mem_cons.mpr (Or.inr hx))
    have hcount : (callSignedCount (l :: ls) : ℚ) =
        (legCallSign l : ℚ) + (callSignedCount ls : ℚ) := by
      rw [callSignedCount, callSignedCount, List.map_cons, List.sum_cons]
      push_cast
      ring
    have hleg : legPnlAt l p - legPnlAt l q = (p - q) * 100 * (legCallSign l : ℚ) := by
      rcases l with ⟨t, sd, K, pr, d, g, th, v, w⟩
      simp only [legPnlAt, intrinsicAt, legCallSign] at *
      cases t with
      | call =>
        have e1 : max 0 (q - K) = q - K := max_eq_right (by linarith)
        have e2 : max 0 (p - K) = p - K := max_eq_right (by linarith)
        cases sd <;> simp only [e1, e2] <;> push_cast <;> ring
      | put =>
        have e1 : max 0 (K - q) = 0 := max_eq_left (by linarith)
        have e2 : max 0 (K - p) = 0 := max_eq_left (by linarith)
        cases sd <;> simp only [e1, e2] <;> push_cast <;> ring
    simp only [payoffAt_cons]
    rw [hcount]
    nlinarith [hleg, hls]

theorem worstPnlAt_eq (legs : List StrategyLeg) :
    worstPnlAt legs = ((criticalPrices legs).map (payoffAt legs)).foldl min 0 := by
  rw [worstPnlAt, List.foldl_map]

theorem worstPnlAt_nonpos (legs : List StrategyLeg) : worstPnlAt legs ≤ 0 := by
  rw [worstPnlAt_eq]
  exact foldl_min_le_init _ 0

theorem worstPnlAt_le_payoff {legs : List StrategyLeg} {c : ℚ}
    (hc : c ∈ criticalPrices legs) : worstPnlAt legs ≤ payoffAt legs c := by
  rw [worstPnlAt_eq]
  exact foldl_min_le_of_mem (List.mem_map_of_mem _ hc)

theorem zero_mem_criticalPrices (legs : List StrategyLeg) :
    (0 : ℚ) ∈ criticalPrices legs :=
  List.mem_cons_self _ _

theorem twoM_mem_criticalPrices (legs : List StrategyLeg) :
    listMax (legs.map (·.strike)) * 2 ∈ criticalPrices legs := by
  rw [criticalPrices]
  exact List.mem_cons.mpr (Or.inr (List.mem_append_right _ (List.mem_singleton.mpr rfl)))

theorem strike_mem_criticalPrices {legs : List StrategyLeg} {l : StrategyLeg}
    (hl : l ∈ legs) : l.strike ∈ criticalPrices legs := by
  rw [criticalPrices]
  exact List.mem_cons.mpr (Or.inr (List.mem_append_left _ (List.mem_map_of_mem _ hl)))

/-- Core dominance lemma: for a leg set with non-negative strikes and a
non-negative far-right slope, the payoff at every non-negative price is
at least the worst payoff over the critical prices. -/
theorem worstPnlAt_le_payoff_all (legs : List StrategyLeg) (hne : legs ≠ [])
    (hstr : ∀ l ∈ legs, 0 ≤ l.strike) (hcall : 0 ≤ callSignedCount legs)
    (p : ℚ) (hp : 0 ≤ p) : worstPnlAt legs ≤ payoffAt legs p := by
  set M := listMax (legs.map (·.strike)) with hM
  have hmapne : legs.map (·.strike) ≠ [] := by
    intro hcon
    exact hne (List.map_eq_nil.mp hcon)
  have hM0 : 0 ≤ M := by
    rcases List.mem_map.mp (listMax_mem hmapne) with ⟨l, hl, hstrike⟩
    rw [hM, ← hstrike]
    exact hstr l hl
  have hstrike_le_M : ∀ l ∈ legs, l.strike ≤ M := fun l hl =>
    le_listMax_of_mem (List.mem_map_of_mem _ hl)
  by_cases hp2 : p ≤ M * 2
  · -- p lies in [0, 2M]: pick the adjacent critical prices around p.
    set C := criticalPrices legs with hC
    set below := C.filter (fun c => decide (c ≤ p)) with hbelow
    set above := C.filter (fun c => decide (p ≤ c)) with habove
    have h0below : (0 : ℚ) ∈ below := by
      rw [hbelow]
      exact List.mem_filter.mpr ⟨zero_mem_criticalPrices legs, by simpa using hp⟩
    have h2above : M * 2 ∈ above := by
      rw [habove]
      exact List.mem_filter.mpr ⟨twoM_mem_criticalPrices legs, by simpa using hp2⟩
    have hbelowne : below ≠ [] := List.ne_nil_of_mem h0below
    have habovene : above ≠ [] := List.ne_nil_of_mem h2above
    set c1 := listMax below with hc1
    set c2 := listMin above with hc2
    have hc1mem : c1 ∈ below := listMax_mem hbelowne
    have hc2mem : c2 ∈ above := listMin_mem habovene
    have hc1C : c1 ∈ C := (List.mem_filter.mp hc1mem).1
    have hc2C : c2 ∈ C := (List.mem_filter.mp hc2mem).1
    have hc1p : c1 ≤ p := by
      have := (List.mem_filter.mp hc1mem).2
      simpa using this
    have hpc2 : p ≤ c2 := by
      have := (List.mem_filter.mp hc2mem).2
      simpa using this
    have hsep : ∀ l ∈ legs, l.strike ≤ c1 ∨ c2 ≤ l.strike := by
      intro l hl
      rcases le_total l.strike p with hK | hK
      · left
        apply le_listMax_of_mem
        rw [hbelow]
        exact List.mem_filter.mpr ⟨strike_mem_criticalPrices hl, by simpa using hK⟩
      · right
        apply listMin_le_of_mem
        rw [habove]
        exact List.mem_filter.mpr ⟨strike_mem_criticalPrices hl, by simpa using hK⟩
    rcases lt_or_eq_of_le (le_trans hc1p hpc2) with hlt | heq
    · have hmin := payoff_ge_min_endpoints legs c1 c2 p hc1p hpc2 hlt hsep
      have h1 := worstPnlAt_le_payoff hc1C
      have h2 := worstPnlAt_le_payoff hc2C
      rcases min_cases (payoffAt legs c1) (payoffAt legs c2) with ⟨hm, _⟩ | ⟨hm, _⟩
      · rw [hm] at hmin
        linarith
      · rw [hm] at hmin
        linarith
    · have hpeq : p = c1 := le_antisymm (heq ▸ hpc2 : p ≤ c1) hc1p
      rw [hpeq]
      exact worstPnlAt_le_payoff hc1C
  · -- p beyond twice the maximum strike: the payoff is non-decreasing there.
    have hq : ∀ l ∈ legs, l.strike ≤ M * 2 := by
      intro l hl
      have := hstrike_le_M l hl
      linarith
    have hdiff := payoff_sub_beyond legs (M * 2) p hq (by linarith)
    have hcount : (0 : ℚ) ≤ (callSignedCount legs : ℚ) := by exact_mod_cast hcall
    have h2M := worstPnlAt_le_payoff (twoM_mem_criticalPrices legs)
    nlinarith [hdiff, hcount, h2M]

/-- Every sampled point's P&L is the rounded payoff at some non-negative
price. -/
theorem mem_computePnlPoints {legs : List StrategyLeg} {cp : ℚ} {pt : PnlPoint}
    (h : pt ∈ computePnlPoints legs cp) :
    ∃ p, 0 ≤ p ∧ pt.pnl = round2 (payoffAt legs p) := by
  rw [computePnlPoints] at h
  split at h
  · next hstep =>
    rcases List.mem_map.mp h with ⟨k, _, hpt⟩
    refine ⟨_, ?_, by rw [← hpt, samplePoint]⟩
    have hlo : (0 : ℚ) ≤ max 0 (min (cp * (85/100))
        (listMin (legs.map (·.strike)) -
          max (listMax (legs.map (·.strike)) - listMin (legs.map (·.strike)))
            (cp * (1/10)))) := le_max_left _ _
    have hks : (0 : ℚ) ≤ (k : ℚ) * _ := mul_nonneg (Nat.cast_nonneg k) (le_of_lt hstep)
    exact add_nonneg hlo hks
  · rcases List.mem_singleton.mp h with rfl
    rw [samplePoint]
    refine ⟨_, ?_, rfl⟩
    have hlo : (0 : ℚ) ≤ max 0 (min (cp * (85/100))
        (listMin (legs.map (·.strike)) -
          max (listMax (legs.map (·.strike)) - listMin (legs.map (·.strike)))
            (cp * (1/10)))) := le_max_left _ _
    simpa using hlo

/-- C3: for every leg set with a defined (non-unlimited) risk — strikes
non-negative and at least as many bought as sold calls, so the payoff is
bounded below — the analytic max loss evaluated at the critical prices
{0, every leg strike, 2 × max strike} dominates the sampled curve: every
sampled P&L value is at least `-maxLoss` (equivalently, maxLoss ≥ the
absolute value of the most negative sampled point). -/
theorem c3_maxloss_dominates_sampling (legs : List StrategyLeg) (cp : ℚ)
    (hne : legs ≠ []) (hstr : ∀ l ∈ legs, 0 ≤ l.strike)
    (hcall : 0 ≤ callSignedCount legs) :
    ∀ pt ∈ computePnlPoints legs cp, -(maxLossCritical legs) ≤ pt.pnl := by
  intro pt hpt
  rcases mem_computePnlPoints hpt with ⟨p, hp, hpnl⟩
  have hworst := worstPnlAt_le_payoff_all legs hne hstr hcall p hp
  have hnonpos := worstPnlAt_nonpos legs
  rw [hpnl, maxLossCritical]
  exact neg_round2_abs_le_round2 hworst hnonpos

/-- An optional delta has magnitude at most 1 (vacuously true when
absent). -/
def optAbsLe1 : Option ℚ → Prop
  | none => True
  | some d => |d| ≤ 1

instance : ∀ o : Option ℚ, Decidable (optAbsLe1 o)
  | none => isTrue trivial
  | some d => inferInstanceAs (Decidable (|d| ≤ 1))

/-- The delta-magnitude hypothesis on a strike row: every present delta
lies in [-1, 1]. -/
def deltaOK (s : StrikeData) : Prop :=
  optAbsLe1 s.callDelta ∧ optAbsLe1 s.putDelta

instance (s : StrikeData) : Decidable (deltaOK s) :=
  inferInstanceAs (Decidable (_ ∧ _))

/-- The PoP-boundedness property of a card that the claims inspect. -/
def popInUnit (card : StrategyCard) : Prop :=
  ∀ p, card.pop = some p → 0 ≤ p ∧ p ≤ 1

theorem makeLeg_delta_bound {s : StrikeData} {t : OptType} {sd : Side}
    {l : StrategyLeg} (hok : deltaOK s) (h : makeLeg s t sd = some l) :
    |l.delta| ≤ 1 := by
  have hd : |(match t with | OptType.call => s.callDelta | OptType.put => s.putDelta).getD 0| ≤ 1 := by
    cases t with
    | call =>
      cases hcd : s.callDelta with
      | none => simp
      | some d =>
        have := hok.1
        rw [hcd] at this
        simpa using this
    | put =>
      cases hpd : s.putDelta with
      | none => simp
      | some d =>
        have := hok.2
        rw [hpd] at this
        simpa using this
  simp only [makeLeg] at h
  split at h
  · cases h
  · split at h
    · cases h
    · injection h with h
      rw [← h]
      cases sd with
      | buy => simpa using hd
      | sell => simpa using hd

/-- The card property propagated through the generation pipeline:
a delta-based PoP in [0,1] and an as-yet-unset hvPop. -/
def cardOK (card : StrategyCard) : Prop :=
  popInUnit card ∧ card.hvPop = none

theorem clamp01_bounds (z : ℚ) : 0 ≤ max 0 (min 1 z) ∧ max 0 (min 1 z) ≤ 1 :=
  ⟨le_max_left _ _, max_le (by norm_num) (min_le_left _ _)⟩

theorem buildCard_cardOK (name label : String) (legs : List StrategyLeg)
    (expiration : String) (dte cp : ℚ) (unl : Bool)
    (hlegs : ∀ l ∈ legs, |l.delta| ≤ 1) :
    cardOK (buildCard name label legs expiration dte cp unl) := by
  constructor
  · intro p hp
    simp only [buildCard] at hp
    split at hp
    · simp only [Option.map_some'] at hp
      rw [← Option.some_inj.mp hp]
      exact ⟨round2_nonneg (clamp01_bounds _).1, round2_le_one (clamp01_bounds _).2⟩
    · split at hp
      · cases hp
      · next l0 rest heq =>
        simp only [Option.map_some'] at hp
        rw [← Option.some_inj.mp hp]
        have hl0 : l0 ∈ legs := by
          have : l0 ∈ legs.filter fun l => decide (l.side = Side.buy) := by
            rw [heq]
            exact List.mem_cons_self _ _
          exact (List.mem_filter.mp this).1
        exact ⟨round2_nonneg (abs_nonneg _), round2_le_one (hlegs l0 hl0)⟩
  · simp only [buildCard]

theorem computeHvAdjustedPoP_bound (ex sq : ℚ → ℚ) (card : StrategyCard)
    (price hv dte : ℚ) (hpop : popInUnit card) :
    0 ≤ computeHvAdjustedPoP ex sq card price hv dte ∧
    computeHvAdjustedPoP ex sq card price hv dte ≤ 1 := by
  have hfall : 0 ≤ card.pop.getD 0 ∧ card.pop.getD 0 ≤ 1 := by
    cases hp : card.pop with
    | none => simp
    | some p =>
      simpa using hpop p hp
  rw [computeHvAdjustedPoP]
  dsimp only
  split
  · exact hfall
  · split
    · exact hfall
    · split
      · exact hfall
      · split
        · split
          · exact ⟨le_max_left _ _, max_le (by norm_num) (min_le_left _ _)⟩
          · exact ⟨le_max_left _ _, max_le (by norm_num) (min_le_left _ _)⟩
        · split
          · exact ⟨le_max_left _ _, max_le (by norm_num) (min_le_left _ _)⟩
          · exact hfall

theorem enrichCard_pop_eq (ex sq : ℚ → ℚ) (price cappedHv dte hvProxyML : ℚ)
    (card : StrategyCard) :
    (enrichCard ex sq price cappedHv dte hvProxyML card).pop = card.pop := by
  rw [enrichCard]
  cases hp : card.pop with
  | none =>
    dsimp only
    exact hp
  | some p =>
    dsimp only
    repeat' split
    all_goals rfl

theorem enrichCard_hvPop_none (ex sq : ℚ → ℚ) (price cappedHv dte hvProxyML : ℚ)
    (card : StrategyCard) (hp : card.pop = none) :
    (enrichCard ex sq price cappedHv dte hvProxyML card).hvPop = card.hvPop := by
  rw [enrichCard, hp]

theorem enrichCard_hvPop_some (ex sq : ℚ → ℚ) (price cappedHv dte hvProxyML : ℚ)
    (card : StrategyCard) (p : ℚ) (hp : card.pop = some p) :
    (enrichCard ex sq price cappedHv dte hvProxyML card).hvPop =
    (if creditStrategies.contains card.name then
      some (round3 (computeHvAdjustedPoP ex sq card price cappedHv dte)) else none) := by
  rw [enrichCard, hp]
  dsimp only
  by_cases hcred : creditStrategies.contains card.name = true
  · simp only [hcred, if_true]
    repeat' split
    all_goals rfl
  · have hf : creditStrategies.contains card.name = false :=
      Bool.eq_false_iff.mpr hcred
    simp only [hf, Bool.false_eq_true, if_false]
    repeat' split
    all_goals rfl

theorem enrichCard_bounds (ex sq : ℚ → ℚ) (price cappedHv dte hvProxyML : ℚ)
    (card : StrategyCard) (h : cardOK card) :
    popInUnit (enrichCard ex sq price cappedHv dte hvProxyML card) ∧
    (∀ q, (enrichCard ex sq price cappedHv dte hvProxyML card).hvPop = some q →
      0 ≤ q ∧ q ≤ 1) := by
  rcases h with ⟨hpop, hhv⟩
  constructor
  · intro r hr
    rw [enrichCard_pop_eq] at hr
    exact hpop r hr
  · intro q hq
    cases hp : card.pop with
    | none =>
      rw [enrichCard_hvPop_none ex sq price cappedHv dte hvProxyML card hp, hhv] at hq
      cases hq
    | some p =>
      rw [enrichCard_hvPop_some ex sq price cappedHv dte hvProxyML card p hp] at hq
      split at hq
      · have hq' := Option.some_inj.mp hq
        rw [← hq']
        have hb := computeHvAdjustedPoP_bound ex sq card price cappedHv dte hpop
        exact ⟨round3_nonneg hb.1, round3_le_one hb.2⟩
      · cases hq

theorem fbdStep_cases {target : ℚ} {side : OptType}
    {acc : Option (StrikeData × ℚ)} {s b : StrikeData} {bd : ℚ}
    (h : fbdStep target side acc s = some (b, bd)) :
    acc = some (b, bd) ∨ b = s := by
  rw [fbdStep.eq_def] at h
  split at h
  · exact Or.inl h
  · dsimp only at h
    split at h
    · right
      injection h with h
      injection h with h1 h2
      exact h1.symm
    · split at h
      · right
        injection h with h
        injection h with h1 h2
        exact h1.symm
      · exact Or.inl h

theorem foldl_fbd_mem {target : ℚ} {side : OptType} (l : List StrikeData) :
    ∀ (acc : Option (StrikeData × ℚ)) (b : StrikeData) (bd : ℚ),
    l.foldl (fbdStep target side) acc = some (b, bd) →
    (∃ d0, acc = some (b, d0)) ∨ b ∈ l := by
  induction l with
  | nil =>
    intro acc b bd h
    exact Or.inl ⟨bd, h⟩
  | cons x xs ih =>
    intro acc b bd h
    rw [List.foldl_cons] at h
    rcases ih _ b bd h with ⟨d0, hstep⟩ | hmem
    · rcases fbdStep_cases hstep with hacc | rfl
      · exact Or.inl ⟨d0, hacc⟩
      · exact Or.inr (List.mem_cons_self _ _)
    · exact Or.inr (List.mem_cons.mpr (Or.inr hmem))

theorem findByDelta_mem {strikes : List StrikeData} {target : ℚ} {side : OptType}
    {s : StrikeData} (h : findByDelta strikes target side = some s) : s ∈ strikes := by
  rw [findByDelta] at h
  rcases Option.map_eq_some'.mp h with ⟨⟨b, bd⟩, hfold, hfst⟩
  rcases foldl_fbd_mem strikes none b bd hfold with ⟨d0, hacc⟩ | hmem
  · cases hacc
  · rw [← hfst]
    exact hmem

theorem pickHigher_cases {acc : Option StrikeData} {s b : StrikeData}
    (h : pickHigher acc s = some b) : acc = some b ∨ b = s := by
  rw [pickHigher.eq_def] at h
  split at h
  · right
    exact (Option.some_inj.mp h).symm
  · split at h
    · right
      exact (Option.some_inj.mp h).symm
    · exact Or.inl h

theorem pickLower_cases {acc : Option StrikeData} {s b : StrikeData}
    (h : pickLower acc s = some b) : acc = some b ∨ b = s := by
  rw [pickLower.eq_def] at h
  split at h
  · right
    exact (Option.some_inj.mp h).symm
  · split at h
    · right
      exact (Option.some_inj.mp h).symm
    · exact Or.inl h

theorem foldl_pickHigher_mem (l : List StrikeData) :
    ∀ (acc : Option StrikeData) (b : StrikeData),
    l.foldl pickHigher acc = some b → acc = some b ∨ b ∈ l := by
  induction l with
  | nil => exact fun acc b h => Or.inl h
  | cons x xs ih =>
    intro acc b h
    rw [List.foldl_cons] at h
    rcases ih _ b h with hstep | hmem
    · rcases pickHigher_cases hstep with hacc | rfl
      · exact Or.inl hacc
      · exact Or.inr (List.mem_cons_self _ _)
    · exact Or.inr (List.mem_cons.mpr (Or.inr hmem))

theorem foldl_pickLower_mem (l : List StrikeData) :
    ∀ (acc : Option StrikeData) (b : StrikeData),
    l.foldl pickLower acc = some b → acc = some b ∨ b ∈ l := by
  induction l with
  | nil => exact fun acc b h => Or.inl h
  | cons x xs ih =>
    intro acc b h
    rw [List.foldl_cons] at h
    rcases ih _ b h with hstep | hmem
    · rcases pickLower_cases hstep with hacc | rfl
      · exact Or.inl hacc
      · exact Or.inr (List.mem_cons_self _ _)
    · exact Or.inr (List.mem_cons.mpr (Or.inr hmem))

theorem nextStrikeBelow_mem {strikes : List StrikeData} {ref : ℚ} {s : StrikeData}
    (h : nextStrikeBelow strikes ref = some s) : s ∈ strikes := by
  rw [nextStrikeBelow] at h
  rcases foldl_pickHigher_mem _ none s h with hacc | hmem
  · cases hacc
  · exact (List.mem_filter.mp hmem).1

theorem nextStrikeAbove_mem {strikes : List StrikeData} {ref : ℚ} {s : StrikeData}
    (h : nextStrikeAbove strikes ref = some s) : s ∈ strikes := by
  rw [nextStrikeAbove] at h
  rcases foldl_pickLower_mem _ none s h with hacc | hmem
  · cases hacc
  · exact (List.mem_filter.mp hmem).1

theorem bestOver_spec {f : ℚ → Option (StrategyCard × ℚ)} {P : StrategyCard → Prop}
    (hf : ∀ d c s, f d = some (c, s) → P c) (ds : List ℚ) :
    ∀ (acc : Option (StrategyCard × ℚ)) (c : StrategyCard) (sc : ℚ),
    (∀ c0 s0, acc = some (c0, s0) → P c0) →
    ds.foldl (fun acc d =>
      match f d with
      | none => acc
      | some (c, s) =>
        match acc with
        | none => some (c, s)
        | some (b, bs) => if bs < s then some (c, s) else some (b, bs)) acc =
      some (c, sc) →
    P c := by
  induction ds with
  | nil => exact fun acc c sc hacc h => hacc c sc h
  | cons d ds ih =>
    intro acc c sc hacc h
    rw [List.foldl_cons] at h
    apply ih _ c sc ?_ h
    intro c0 s0 hstep
    cases hfd : f d with
    | none =>
      rw [hfd] at hstep
      exact hacc c0 s0 hstep
    | some pair =>
      rcases pair with ⟨c1, s1⟩
      rw [hfd] at hstep
      dsimp only at hstep
      cases hacc' : acc with
      | none =>
        rw [hacc'] at hstep
        injection hstep with hstep
        injection hstep with h1 h2
        rw [← h1]
        exact hf d c1 s1 hfd
      | some pair0 =>
        rcases pair0 with ⟨b0, bs0⟩
        rw [hacc'] at hstep
        dsimp only at hstep
        split at hstep
        · injection hstep with hstep
          injection hstep with h1 h2
          rw [← h1]
          exact hf d c1 s1 hfd
        · injection hstep with hstep
          injection hstep with h1 h2
          rw [← h1]
          exact hacc b0 bs0 hacc'

theorem icCandidate_cardOK {valid : List StrikeData} {label exp : String}
    {dte cp d : ℚ} {c : StrategyCard} {sc : ℚ}
    (hok : ∀ s ∈ valid, deltaOK s)
    (h : icCandidate valid label exp dte cp d = some (c, sc)) : cardOK c := by
  rw [icCandidate] at h
  split at h <;> try cases h
  rename_i sp sc1 hsp hsc
  split at h <;> try cases h
  rename_i lp lc hlp hlc
  split at h <;> try cases h
  rename_i l1 l2 l3 l4 h1 h2 h3 h4
  dsimp only at h
  split at h <;> try cases h
  split at h <;> try cases h
  apply buildCard_cardOK
  intro l hl
  simp only [List.mem_cons, List.not_mem_nil, or_false] at hl
  rcases hl with rfl | rfl | rfl | rfl
  · exact makeLeg_delta_bound (hok sp (findByDelta_mem hsp)) h1
  · exact makeLeg_delta_bound (hok lp (nextStrikeBelow_mem hlp)) h2
  · exact makeLeg_delta_bound (hok sc1 (findByDelta_mem hsc)) h3
  · exact makeLeg_delta_bound (hok lc (nextStrikeAbove_mem hlc)) h4

theorem pcsCandidate_cardOK {valid : List StrikeData} {label exp : String}
    {dte cp d : ℚ} {c : StrategyCard} {sc : ℚ}
    (hok : ∀ s ∈ valid, deltaOK s)
    (h : pcsCandidate valid label exp dte cp d = some (c, sc)) : cardOK c := by
  rw [pcsCandidate] at h
  split at h <;> try cases h
  rename_i sp hsp
  split at h <;> try cases h
  rename_i lp hlp
  split at h <;> try cases h
  rename_i l1 l2 h1 h2
  dsimp only at h
  split at h <;> try cases h
  split at h <;> try cases h
  apply buildCard_cardOK
  intro l hl
  simp only [List.mem_cons, List.not_mem_nil, or_false] at hl
  rcases hl with rfl | rfl
  · exact makeLeg_delta_bound (hok sp (findByDelta_mem hsp)) h1
  · exact makeLeg_delta_bound (hok lp (nextStrikeBelow_mem hlp)) h2

theorem ssCandidate_cardOK {valid : List StrikeData} {label exp : String}
    {dte cp d : ℚ} {c : StrategyCard} {sc : ℚ}
    (hok : ∀ s ∈ valid, deltaOK s)
    (h : ssCandidate valid label exp dte cp d = some (c, sc)) : cardOK c := by
  rw [ssCandidate] at h
  split at h <;> try cases h
  rename_i sp sc1 hsp hsc
  split at h <;> try cases h
  rename_i l1 l2 h1 h2
  dsimp only at h
  split at h <;> try cases h
  split at h <;> try cases h
  apply buildCard_cardOK
  intro l hl
  simp only [List.mem_cons, List.not_mem_nil, or_false] at hl
  rcases hl with rfl | rfl
  · exact makeLeg_delta_bound (hok sp (findByDelta_mem hsp)) h1
  · exact makeLeg_delta_bound (hok sc1 (findByDelta_mem hsc)) h2

theorem scanBestIronCondor_cardOK {valid : List StrikeData} {label exp : String}
    {dte cp : ℚ} {c : StrategyCard}
    (hok : ∀ s ∈ valid, deltaOK s)
    (h : scanBestIronCondor valid label exp dte cp = some c) : cardOK c := by
  rw [scanBestIronCondor] at h
  rcases Option.map_eq_some'.mp h with ⟨⟨b, bs⟩, hfold, hfst⟩
  rw [← hfst]
  rw [bestOver] at hfold
  exact bestOver_spec (fun d c0 s0 hc0 => icCandidate_cardOK hok hc0) IC_DELTAS
    none b bs (fun c0 s0 hc0 => by cases hc0) hfold

theorem scanBestPutCreditSpread_cardOK {valid : List StrikeData} {label exp : String}
    {dte cp : ℚ} {c : StrategyCard}
    (hok : ∀ s ∈ valid, deltaOK s)
    (h : scanBestPutCreditSpread valid label exp dte cp = some c) : cardOK c := by
  rw [scanBestPutCreditSpread] at h
  rcases Option.map_eq_some'.mp h with ⟨⟨b, bs⟩, hfold, hfst⟩
  rw [← hfst]
  rw [bestOver] at hfold
  exact bestOver_spec (fun d c0 s0 hc0 => pcsCandidate_cardOK hok hc0) PCS_DELTAS
    none b bs (fun c0 s0 hc0 => by cases hc0) hfold

theorem scanBestShortStrangle_cardOK {valid : List StrikeData} {label exp : String}
    {dte cp : ℚ} {c : StrategyCard}
    (hok : ∀ s ∈ valid, deltaOK s)
    (h : scanBestShortStrangle valid label exp dte cp = some c) : cardOK c := by
  rw [scanBestShortStrangle] at h
  rcases Option.map_eq_some'.mp h with ⟨⟨b, bs⟩, hfold, hfst⟩
  rw [← hfst]
  rw [bestOver] at hfold
  exact bestOver_spec (fun d c0 s0 hc0 => ssCandidate_cardOK hok hc0) SS_DELTAS
    none b bs (fun c0 s0 hc0 => by cases hc0) hfold

theorem directionalSpreadCard_cardOK {name label : String} {valid : List StrikeData}
    {exp : String} {dte cp : ℚ} {c : StrategyCard}
    (hok : ∀ s ∈ valid, deltaOK s)
    (h : directionalSpreadCard name label valid exp dte cp = some c) : cardOK c := by
  rw [directionalSpreadCard] at h
  split at h <;> try cases h
  rename_i lb sb hlb hsb
  split at h <;> try cases h
  split at h <;> try cases h
  rename_i l1 l2 h1 h2
  apply buildCard_cardOK
  intro l hl
  simp only [List.mem_cons, List.not_mem_nil, or_false] at hl
  rcases hl with rfl | rfl
  · exact makeLeg_delta_bound (hok lb (findByDelta_mem hlb)) h1
  · exact makeLeg_delta_bound (hok sb (findByDelta_mem hsb)) h2

theorem longStraddleCard_cardOK {valid : List StrikeData} {exp : String}
    {dte cp : ℚ} {c : StrategyCard}
    (hok : ∀ s ∈ valid, deltaOK s)
    (h : longStraddleCard valid exp dte cp = some c) : cardOK c := by
  rw [longStraddleCard] at h
  split at h <;> try cases h
  rename_i atm hatm
  split at h <;> try cases h
  rename_i l1 l2 h1 h2
  apply buildCard_cardOK
  intro l hl
  simp only [List.mem_cons, List.not_mem_nil, or_false] at hl
  rcases hl with rfl | rfl
  · exact makeLeg_delta_bound (hok atm (findByDelta_mem hatm)) h1
  · exact makeLeg_delta_bound (hok atm (findByDelta_mem hatm)) h2

theorem longStrangleCard_cardOK {valid : List StrikeData} {exp : String}
    {dte cp : ℚ} {c : StrategyCard}
    (hok : ∀ s ∈ valid, deltaOK s)
    (h : longStrangleCard valid exp dte cp = some c) : cardOK c := by
  rw [longStrangleCard] at h
  split at h <;> try cases h
  rename_i bc bp hbc hbp
  split at h <;> try cases h
  split at h <;> try cases h
  rename_i l1 l2 h1 h2
  apply buildCard_cardOK
  intro l hl
  simp only [List.mem_cons, List.not_mem_nil, or_false] at hl
  rcases hl with rfl | rfl
  · exact makeLeg_delta_bound (hok bc (findByDelta_mem hbc)) h1
  · exact makeLeg_delta_bound (hok bp (findByDelta_mem hbp)) h2

theorem rawCards_cardOK {valid : List StrikeData} {pct : ℚ} {exp : String}
    {dte cp : ℚ} {c : StrategyCard}
    (hok : ∀ s ∈ valid, deltaOK s)
    (h : c ∈ rawCards valid pct exp dte cp) : cardOK c := by
  rw [rawCards] at h
  split at h
  · rcases List.mem_append.mp h with h' | h'
    · rcases List.mem_append.mp h' with h'' | h''
      · exact scanBestIronCondor_cardOK hok (Option.mem_toList.mp h'')
      · exact scanBestPutCreditSpread_cardOK hok (Option.mem_toList.mp h'')
    · exact scanBestShortStrangle_cardOK hok (Option.mem_toList.mp h')
  · split at h
    · rcases List.mem_append.mp h with h' | h'
      · rcases List.mem_append.mp h' with h'' | h''
        · exact directionalSpreadCard_cardOK hok (Option.mem_toList.mp h'')
        · exact scanBestIronCondor_cardOK hok (Option.mem_toList.mp h'')
      · exact scanBestPutCreditSpread_cardOK hok (Option.mem_toList.mp h')
    · rcases List.mem_append.mp h with h' | h'
      · rcases List.mem_append.mp h' with h'' | h''
        · exact longStraddleCard_cardOK hok (Option.mem_toList.mp h'')
        · exact longStrangleCard_cardOK hok (Option.mem_toList.mp h'')
      · exact directionalSpreadCard_cardOK hok (Option.mem_toList.mp h')

/-- C1 (amended): whenever every delta in the input strike table has
magnitude at most 1 — true of real option deltas, but not enforced by the
code — every StrategyCard produced by `generateStrategies` has its
delta-based PoP in [0,1] whenever non-null, and its volatility-adjusted
hvPop in [0,1] whenever non-null.  (Without the delta hypothesis the
debit-card path, whose PoP is the unclamped absolute delta of the first
long leg, can exceed 1 — see the counterexample.) -/
theorem c1_pop_in_unit_amended (ex sq : ℚ → ℚ) (params : GenerateParams)
    (hdeltas : ∀ s ∈ params.strikes, deltaOK s) :
    ∀ card ∈ generateStrategies ex sq params,
      (∀ p, card.pop = some p → 0 ≤ p ∧ p ≤ 1) ∧
      (∀ q, card.hvPop = some q → 0 ≤ q ∧ q ≤ 1) := by
  intro card hmem
  rw [generateStrategies] at hmem
  split at hmem
  · cases hmem
  · rcases mem_relabelFrom hmem with ⟨c', hc', hnc, hpop, hhv⟩
    rw [mem_sortCards] at hc'
    have hc'' := (List.mem_filter.mp hc').1
    rcases List.mem_map.mp hc'' with ⟨c0, hc0, henrich⟩
    have hvalidok : ∀ s ∈ validStrikes params.strikes, deltaOK s := fun s hs =>
      hdeltas s (List.mem_filter.mp hs).1
    have hok := rawCards_cardOK hvalidok hc0
    have hb := enrichCard_bounds ex sq params.currentPrice
      (cappedHvOf params.iv30 params.hv30) params.dte
      (hvProxyMLOf sq params.currentPrice (cappedHvOf params.iv30 params.hv30)
        params.dte) c0 hok
    rw [henrich] at hb
    constructor
    · intro p hp
      rw [hpop] at hp
      exact hb.1 p hp
    · intro q hq
      rw [hhv] at hq
      exact hb.2 q hq

/-- A strike row for the C1 counterexample with only call-side data. -/
def c1Strike (strike : ℚ) (callBid callAsk callDelta : Option ℚ) : StrikeData :=
  { strike := strike, callBid := callBid, callAsk := callAsk,
    putBid := none, putAsk := none, callDelta := callDelta, putDelta := none,
    callTheta := none, putTheta := none, callGamma := none, putGamma := none,
    callVega := none, putVega := none, callIv := none, putIv := none,
    callVolume := none, putVolume := none, callOI := none, putOI := none,
    callWideSpread := false, putWideSpread := false }

/-- C1 counterexample input: three valid strikes in the normal-IV tier, a
call delta of 1.2 at strike 90 (closest to the 0.50 target) — nothing in
the code rejects a delta of magnitude above 1. -/
def c1CexParams : GenerateParams :=
  { strikes := [c1Strike 90 (some 4) (some 5) (some (6/5)),
                c1Strike 100 (some 1) (some 2) (some (-(2/5))),
                c1Strike 50 (some 1) (some 2) (some 100)],
    currentPrice := 95, ivRank := 3/10, expiration := "2026-01-16", dte := 30,
    symbol := none, iv30 := none, hv30 := none }

/-- C1 counterexample: on this input `generateStrategies` outputs a Bull
Call Spread whose stored pop is 1.2 > 1 and which survives all three
gates, refuting the claim for arbitrary strike lists. -/
theorem c1_counterexample :
    ¬ (∀ card ∈ generateStrategies exCex sqCex c1CexParams,
        ∀ p, card.pop = some p → p ≤ 1) := by
  with_unfolding_all decide

/-- C1 witness input: the same three-strike normal-IV geometry with
realistic deltas of magnitude at most 1. -/
def c1WitParams : GenerateParams :=
  { strikes := [c1Strike 90 (some 4) (some 5) (some (55/100)),
                c1Strike 100 (some 1) (some 2) (some (3/10)),
                c1Strike 50 (some 1) (some 2) (some (95/100))],
    currentPrice := 95, ivRank := 3/10, expiration := "2026-01-16", dte := 30,
    symbol := none, iv30 := none, hv30 := none }

theorem c1_witness :
    (∀ s ∈ c1WitParams.strikes, deltaOK s) ∧
    (∀ card ∈ generateStrategies exCex sqCex c1WitParams,
      (∀ p, card.pop = some p → 0 ≤ p ∧ p ≤ 1) ∧
      (∀ q, card.hvPop = some q → 0 ≤ q ∧ q ≤ 1)) :=
  ⟨by with_unfolding_all decide,
   c1_pop_in_unit_amended exCex sqCex c1WitParams (by with_unfolding_all decide)⟩

theorem c2_witness :
    (creditStrategies.contains c2CexCard.name = true ∧
      c2CexCard.pop = some (1/2) ∧ round2 (1/2 : ℚ) = 1/2 ∧ (0 : ℚ) ≤ 0) ∧
    ((enrichCard exCex sqCex 100 (cappedHvOf (some (2/5)) (some 0)) 365 0
        c2CexCard).hvPop = some (1/2) ∧
      ((1 : ℚ)/2 ≠ 0 →
        (enrichCard exCex sqCex 100 (cappedHvOf (some (2/5)) (some 0)) 365 0
          c2CexCard).hvPop ≠ some 0)) :=
  ⟨⟨by with_unfolding_all decide, by with_unfolding_all decide,
    by with_unfolding_all decide, le_rfl⟩,
   c2_hv_zero_fallback exCex sqCex c2CexCard 100 365 0 (some (2/5)) 0 (1/2)
     (by with_unfolding_all decide) (by with_unfolding_all decide)
     (by with_unfolding_all decide) le_rfl⟩

theorem c3_witness :
    (([c5CexLeg] : List StrategyLeg) ≠ [] ∧ (∀ l ∈ [c5CexLeg], 0 ≤ l.strike) ∧
      0 ≤ callSignedCount [c5CexLeg]) ∧
    (∀ pt ∈ computePnlPoints [c5CexLeg] 1, -(maxLossCritical [c5CexLeg]) ≤ pt.pnl) :=
  ⟨⟨by with_unfolding_all decide, by with_unfolding_all decide,
    by with_unfolding_all decide⟩,
   c3_maxloss_dominates_sampling [c5CexLeg] 1 (by with_unfolding_all decide)
     (by with_unfolding_all decide) (by with_unfolding_all decide)⟩

theorem c4_witness :
    (([c5CexLeg] : List StrategyLeg) ≠ []) ∧
    ((0 ≤ cashFlowOf [c5CexLeg] →
      (buildCard "Long Call" "A" [c5CexLeg] "2026-01-16" 30 1 false).netCredit =
        some (round2 |cashFlowOf [c5CexLeg]|) ∧
      (buildCard "Long Call" "A" [c5CexLeg] "2026-01-16" 30 1 false).netDebit = none) ∧
    (cashFlowOf [c5CexLeg] < 0 →
      (buildCard "Long Call" "A" [c5CexLeg] "2026-01-16" 30 1 false).netDebit =
        some (round2 |cashFlowOf [c5CexLeg]|) ∧
      (buildCard "Long Call" "A" [c5CexLeg] "2026-01-16" 30 1 false).netCredit = none) ∧
    (∀ v, (buildCard "Long Call" "A" [c5CexLeg] "2026-01-16" 30 1 false).netCredit = some v ∨
          (buildCard "Long Call" "A" [c5CexLeg] "2026-01-16" 30 1 false).netDebit = some v →
      0 ≤ v) ∧
    cashFlowOf [c5CexLeg] =
      (([c5CexLeg].filter fun l => decide (l.side = Side.sell)).map (·.price)).sum
        - (([c5CexLeg].filter fun l => decide (l.side = Side.buy)).map (·.price)).sum) :=
  ⟨by with_unfolding_all decide,
   c4_net_credit_debit_exclusive "Long Call" "A" [c5CexLeg] "2026-01-16" 30 1 false
     (by with_unfolding_all decide)⟩

theorem c5_witness :
    (([c5CexLeg] : List StrategyLeg) ≠ []) ∧
    ((0 < round2 (listMax ((computePnlPoints [c5CexLeg] 1).map (·.pnl))) →
      (buildCard "Long Call" "A" [c5CexLeg] "2026-01-16" 30 1 false).maxProfit =
        some (round2 (listMax ((computePnlPoints [c5CexLeg] 1).map (·.pnl))))) ∧
    (round2 (listMax ((computePnlPoints [c5CexLeg] 1).map (·.pnl))) ≤ 0 →
      (buildCard "Long Call" "A" [c5CexLeg] "2026-01-16" 30 1 false).maxProfit = none)) :=
  ⟨by with_unfolding_all decide,
   c5_maxProfit_amended "Long Call" "A" [c5CexLeg] "2026-01-16" 30 1 false
     (by with_unfolding_all decide)⟩

/-- Empty override set for the C6 witness. -/
def noOverrides : BacktestOverrides :=
  { dte := none, management := none, startDate := none, endDate := none }

theorem c6_witness :
    ((5 ∣ roundDelta (3/10) ∧ 5 ≤ roundDelta (3/10) ∧ roundDelta (3/10) ≤ 50) ∧
      roundDelta (3/10) = 30) ∧
    ((⟨Side.sell, OptType.put, 30⟩ : BacktestLeg) ∈
      (translateToBacktest c2CexCard "spy" noOverrides "2021-01-01" "2026-01-01").legs ∧
      (5 ∣ (30 : ℤ) ∧ 5 ≤ (30 : ℤ) ∧ (30 : ℤ) ≤ 50)) := by
  refine ⟨⟨c6_roundDelta_multiple_of_five.1 (3/10), by with_unfolding_all decide⟩,
    ?_, ?_⟩
  · with_unfolding_all decide
  · have hm : (⟨Side.sell, OptType.put, 30⟩ : BacktestLeg) ∈
        (translateToBacktest c2CexCard "spy" noOverrides "2021-01-01" "2026-01-01").legs := by
      with_unfolding_all decide
    have := c6_roundDelta_multiple_of_five.2 c2CexCard "spy" noOverrides
      "2021-01-01" "2026-01-01" ⟨Side.sell, OptType.put, 30⟩ hm
    simpa using this

/-- Cards for the C7 witness: a sub-minimum credit and an exactly-minimum
credit variant of the concrete credit card. -/
def c7LowCard : StrategyCard := { c2CexCard with netCredit := some (1/20) }

def c7OkCard : StrategyCard :=
  { c2CexCard with netCredit := some (1/10), ev := 1, pop := some (9/10) }

theorem c7_witness :
    (c7LowCard.netCredit = some (1/20) ∧ (0 : ℚ) < 1/20 ∧ (1 : ℚ)/20 < 1/10 ∧
      gatePass c7LowCard = false) ∧
    (c7OkCard.netCredit = some (1/10) ∧ 0 < c7OkCard.ev ∧ c7OkCard.pop = some (9/10) ∧
      popFloor c7OkCard.name ≤ 9/10 ∧ gatePass c7OkCard = true) ∧
    (∀ card ∈ generateStrategies exCex sqCex c1WitParams,
      ∀ c, card.netCredit = some c → 1/10 ≤ c) := by
  refine ⟨⟨by with_unfolding_all decide, by norm_num, by norm_num, ?_⟩,
    ⟨by with_unfolding_all decide, by with_unfolding_all decide,
      by with_unfolding_all decide, by with_unfolding_all decide, ?_⟩, ?_⟩
  · exact c7_min_credit_gate.1 c7LowCard (1/20) (by with_unfolding_all decide)
      (by norm_num) (by norm_num)
  · exact c7_min_credit_gate.2.1 c7OkCard (9/10) (by with_unfolding_all decide)
      (by with_unfolding_all decide) (by with_unfolding_all decide)
      (by with_unfolding_all decide)
  · exact fun card hm c hc =>
      c7_min_credit_gate.2.2 exCex sqCex c1WitParams card c hm hc

theorem c8_witness :
    List.Sorted (scoreGE 0 0) [c2CexCard] ∧ sortCards 0 0 [c2CexCard] = [c2CexCard] :=
  ⟨List.sorted_singleton _, c8_ranking_stable_idempotent.2.2.2.1 0 0 [c2CexCard]
    (List.sorted_singleton _)⟩

/-- C9 witness data: one canonical-field raw trade. -/
def c9WitTrade : RawTrade :=
  { entryDate := some "2024-01-02", openDate := none,
    exitDate := some "2024-01-20", closeDate := none,
    entryPrice := some 2, openPrice := none,
    exitPrice := some 1, closePrice := none,
    pnl := some 100, profitLoss := none,
    pnlPercent := some 50, returnPercent := none,
    holdingDays := some 18, daysHeld := none,
    exitReason := some "profit-target", closeReason := none,
    maxDrawdown := some 30 }

theorem c9_witness :
    (∀ t ∈ [c9WitTrade], t.profitLoss = none) ∧
    parseBacktestTrades ⟨none, some ([c9WitTrade].map altifyTrade)⟩ =
      parseBacktestTrades ⟨some [c9WitTrade], none⟩ :=
  ⟨by with_unfolding_all decide,
   c9_parse_shape_tolerant [c9WitTrade] (by with_unfolding_all decide)⟩

theorem c10_witness :
    (([c5CexLeg] : List StrategyLeg) ≠ []) ∧
    List.Sorted (· ≤ ·)
      (buildCard "Long Call" "A" [c5CexLeg] "2026-01-16" 30 1 false).breakevens :=
  ⟨by with_unfolding_all decide,
   c10_breakevens_sorted "Long Call" "A" [c5CexLeg] "2026-01-16" 30 1 false
     (by with_unfolding_all decide)⟩
